import Mathlib

/-!
Shallow embedding of the core of the limiga LCG/CDCL solver, together with
proofs settling the specification claims C1..C10.

Each definition is translated from the named Rust source file.  Machine
integers (`u32`, `usize`, `i32`) are modelled as `Nat`/`Int`; all values
involved stay far below the overflow boundaries, and variable codes are
bounded by `MAX_VAR_CODE = 2^31 - 1` at construction in the source.
-/

namespace Limiga

/-! ### Literals — src/crates/core/src/lit.rs -/

/-- A boolean variable, identified by its integer code (`Var(u32)`). -/
structure Var where
  code : Nat
deriving DecidableEq, Repr

/-- A literal packs variable and sign into one integer code (`Lit(u32)`). -/
structure Lit where
  code : Nat
deriving DecidableEq, Repr

/-- `Lit::positive`: `(var.0 << 1) | 1`. -/
def Lit.positive (v : Var) : Lit :=
  ⟨2 * v.code + 1⟩

/-- `Lit::negative`: `var.0 << 1`. -/
def Lit.negative (v : Var) : Lit :=
  ⟨2 * v.code⟩

/-- `Lit::is_positive`: `self.0 & 1 == 1`. -/
def Lit.isPositive (l : Lit) : Bool :=
  l.code % 2 == 1

/-- `Lit::var`: `Var(self.0 >> 1)`. -/
def Lit.var (l : Lit) : Var :=
  ⟨l.code / 2⟩

/-- `Not for Lit`: `Lit(self.0 ^ 1)`. -/
def Lit.not (l : Lit) : Lit :=
  ⟨l.code ^^^ 1⟩

/-! ### Assignment

Modelled from the spec: the file `src/crates/core/src/assignment.rs` in this
snapshot holds an unrelated legacy `Trail` structure, while the `Assignment`
used by `Solver`, the preprocessor and propagation (`value`, `assign`,
`unassign`, `is_unassigned`) is declared only through its callers.  Spec §4.2:
`value(lit) → {unassigned|true|false}` in O(1), a present bit plus a polarity
bit per variable; `assign(lit)` records the literal's polarity for its
variable; `unassign(lit)` clears the present bit; a literal's value is the
negation of its complement's value when assigned. -/

/-- The assignment maps each variable to `none` (unassigned) or the recorded
polarity bit. -/
abbrev Assignment := Var → Option Bool

/-- `Assignment::value(lit)`: `Some(polarity == lit.is_positive())` when the
variable is present, `None` otherwise. -/
def Assignment.value (a : Assignment) (l : Lit) : Option Bool :=
  (a l.var).map (fun b => b == l.isPositive)

/-- `Assignment::assign(lit)`: set the literal's variable to the literal's
polarity. -/
def Assignment.assign (a : Assignment) (l : Lit) : Assignment :=
  fun v => if v = l.var then some l.isPositive else a v

/-- `Assignment::unassign(lit)`: clear the present bit. -/
def Assignment.unassign (a : Assignment) (l : Lit) : Assignment :=
  fun v => if v = l.var then none else a v

/-- `Assignment::is_unassigned(lit)`. -/
def Assignment.isUnassigned (a : Assignment) (l : Lit) : Bool :=
  a.value l == none

/-! ### Propagator queue — src/crates/core/src/propagation/queue.rs

`PropagatorQueue { present: BitVec, queue: Vec<PropagatorId> }`.  The bitset
is modelled as a total function on propagator ids (`grow_to` only resizes the
backing storage). -/

structure PropagatorQueue where
  present : Nat → Bool
  queue : List Nat

/-- The empty queue (`PropagatorQueue::default`). -/
def PropagatorQueue.empty : PropagatorQueue :=
  { present := fun _ => false, queue := [] }

/-- `PropagatorQueue::push`: ignore ids whose present bit is set; otherwise
set the bit and `Vec::push` (append at the back). -/
def PropagatorQueue.push (q : PropagatorQueue) (id : Nat) : PropagatorQueue :=
  if q.present id then q
  else
    { present := fun i => if i = id then true else q.present i,
      queue := q.queue ++ [id] }

/-- `PropagatorQueue::pop`: `self.queue.pop()?` removes the BACK element of
the `Vec`; on success clear the id's present bit. -/
def PropagatorQueue.pop (q : PropagatorQueue) : Option Nat × PropagatorQueue :=
  match q.queue.getLast? with
  | none => (none, q)
  | some id =>
      (some id,
       { present := fun i => if i = id then false else q.present i,
         queue := q.queue.dropLast })

/-! ### Clause preprocessor — src/crates/core/src/preprocessor.rs -/

/-- Result of preprocessing (`PreProcessedClause`). -/
inductive PreProcessedClause where
  | satisfiable
  | lits (lits : List Lit)
deriving DecidableEq, Repr

/-- The `u32` order on literal codes used by `self.buffer.sort()`. -/
def litLE (a b : Lit) : Prop :=
  a.code ≤ b.code

instance : DecidableRel litLE := fun a b => inferInstanceAs (Decidable (a.code ≤ b.code))

instance : IsTotal Lit litLE := ⟨fun a b => Nat.le_total a.code b.code⟩

instance : IsTrans Lit litLE := ⟨fun _ _ _ hab hbc => Nat.le_trans hab hbc⟩

/-- `self.buffer.sort()`: stable sort ascending by literal code. -/
def sortLits (lits : List Lit) : List Lit :=
  lits.insertionSort litLE

/-- Some two adjacent literals of the list are of opposite polarity — the
tautology condition the scan loop detects. -/
def adjComp : List Lit → Prop
  | [] => False
  | [_] => False
  | x :: y :: rest => x = y.not ∨ adjComp (y :: rest)

/-- `self.buffer.dedup()`: remove consecutive repeated literals. -/
def dedupLits : List Lit → List Lit
  | [] => []
  | [a] => [a]
  | a :: b :: rest => if a = b then dedupLits (b :: rest) else a :: dedupLits (b :: rest)

/-- The scan loop of `preprocess` (lines 36–53): return `true` (satisfiable)
if some literal is root-true, or two adjacent literals are of opposite
polarity (`x == !y`). -/
def scanSatisfiable (a : Assignment) : List Lit → Bool
  | [] => false
  | [x] => a.value x == some true
  | x :: y :: rest =>
      a.value x == some true || x == y.not || scanSatisfiable a (y :: rest)

/-- `ClausePreProcessor::preprocess`: sort, dedup, then scan.  Note: the scan
only detects root-true literals and opposite-polarity pairs; literals that
are false at root are NOT removed from the buffer. -/
def preprocess (a : Assignment) (lits : List Lit) : PreProcessedClause :=
  let buffer := dedupLits (sortLits lits)
  if scanSatisfiable a buffer then .satisfiable else .lits buffer

/-! ### VSIDS brancher — src/crates/core/src/brancher.rs

`f64` activities are modelled as exact rationals; the claims about the
brancher concern only additions and multiplications whose operands are exact
in both models. -/

structure VsidsBrancher where
  activities : Var → ℚ
  heap : List Var
  position : Var → Option Nat
  activityIncrement : ℚ
  decay : ℚ

/-- `VsidsBrancher::new(decay)`: all activities 0, `activity_increment: 1.0`. -/
def VsidsBrancher.new (decay : ℚ) : VsidsBrancher :=
  { activities := fun _ => 0
    heap := []
    position := fun _ => none
    activityIncrement := 1
    decay := decay }

/-- `VsidsBrancher::rescale_activities`: every activity is multiplied by
`1e-100`. -/
def VsidsBrancher.rescaleActivities (b : VsidsBrancher) : VsidsBrancher :=
  { b with activities := fun v => b.activities v * (1 / (10 : ℚ) ^ 100) }

/-- The loop body of `VsidsBrancher::sift_up`, recursing towards the root.
`var` is fixed at entry (`let var = self.heap[pos]`). -/
def siftUpGo (activities : Var → ℚ) (var : Var) :
    Nat → List Var → (Var → Option Nat) → List Var × (Var → Option Nat)
  | pos, heap, position =>
    if h : pos = 0 then (heap, position)
    else
      let parentPos := (pos - 1) / 2
      let parentVar := heap.getD parentPos ⟨0⟩
      if activities parentVar ≥ activities var then (heap, position)
      else
        let position' := fun v =>
          if v = parentVar then some pos
          else if v = var then some parentPos
          else position v
        let heap' := (heap.set parentPos var).set pos parentVar
        siftUpGo activities var parentPos heap' position'
termination_by pos _ _ => pos
decreasing_by
  exact Nat.lt_of_le_of_lt (Nat.div_le_self _ _) (by omega)

/-- `VsidsBrancher::sift_up(pos)`. -/
def VsidsBrancher.siftUp (b : VsidsBrancher) (pos : Nat) : VsidsBrancher :=
  let var := b.heap.getD pos ⟨0⟩
  let (heap', position') := siftUpGo b.activities var pos b.heap b.position
  { b with heap := heap', position := position' }

/-- `VsidsBrancher::on_variable_activated(var)`: add the current
`activity_increment` to the variable's activity, rescale all activities when
the result exceeds `1e100`, and sift the variable up if it is in the heap. -/
def VsidsBrancher.onVariableActivated (b : VsidsBrancher) (var : Var) : VsidsBrancher :=
  let activity := b.activities var + b.activityIncrement
  let b1 := { b with activities := fun v => if v = var then activity else b.activities v }
  let b2 := if activity > (10 : ℚ) ^ 100 then b1.rescaleActivities else b1
  match b2.position var with
  | some pos => b2.siftUp pos
  | none => b2

/-- `VsidsBrancher::on_conflict`: `self.activity_increment *= self.decay`. -/
def VsidsBrancher.onConflict (b : VsidsBrancher) : VsidsBrancher :=
  { b with activityIncrement := b.activityIncrement * b.decay }

/-! ### Affine views — src/crates/core/src/integer/affine_view.rs

The crate enables `int_roundings`; `Int::div_floor` rounds towards negative
infinity and `Int::div_ceil` towards positive infinity. -/

/-- `i32::div_floor` (feature `int_roundings`): round towards −∞. -/
def divFloor (a b : Int) : Int :=
  Int.fdiv a b

/-- `i32::div_ceil` (feature `int_roundings`): round towards +∞. -/
def divCeil (a b : Int) : Int :=
  -(Int.fdiv (-a) b)

/-- An affine view `y = scale · x + offset` over an inner integer variable. -/
structure Affine where
  scale : Int
  offset : Int

/-- A bound atom on the inner variable, as produced by
`DomainId::{lower,upper}_bound_atom` (`AtLeast`/`AtMost` in
src/crates/core/src/integer/atoms.rs). -/
inductive IntAtom where
  | atLeast (bound : Int)
  | atMost (bound : Int)
deriving DecidableEq, Repr

/-- Truth of a bound atom at a value of the inner variable. -/
def IntAtom.holds (a : IntAtom) (x : Int) : Prop :=
  match a with
  | .atLeast bound => bound ≤ x
  | .atMost bound => x ≤ bound

/-- `Affine::upper_bound_atom`: for `scale ≥ 0` floor-divide and delegate to
the inner upper-bound atom, otherwise ceil-divide and delegate to the inner
lower-bound atom. -/
def Affine.upperBoundAtom (v : Affine) (bound : Int) : IntAtom :=
  if v.scale ≥ 0 then .atMost (divFloor (bound - v.offset) v.scale)
  else .atLeast (divCeil (bound - v.offset) v.scale)

/-- `Affine::lower_bound_atom`: for `scale ≥ 0` ceil-divide and delegate to
the inner lower-bound atom, otherwise floor-divide and delegate to the inner
upper-bound atom. -/
def Affine.lowerBoundAtom (v : Affine) (bound : Int) : IntAtom :=
  if v.scale ≥ 0 then .atLeast (divCeil (bound - v.offset) v.scale)
  else .atMost (divFloor (bound - v.offset) v.scale)

/-- The bound operation `Affine::set_min`/`set_max` forwards to on the inner
variable. -/
inductive IntSetCall where
  | setMin (bound : Int)
  | setMax (bound : Int)
deriving DecidableEq, Repr

/-- `Affine::set_min`: unconditionally `self.inner.set_min` with
`div_ceil(bound − offset, scale)` — there is no branch on the sign of the
scale. -/
def Affine.setMinCall (v : Affine) (bound : Int) : IntSetCall :=
  .setMin (divCeil (bound - v.offset) v.scale)

/-- `Affine::set_max`: unconditionally `self.inner.set_max` with
`div_floor(bound − offset, scale)` — there is no branch on the sign of the
scale. -/
def Affine.setMaxCall (v : Affine) (bound : Int) : IntSetCall :=
  .setMax (divFloor (bound - v.offset) v.scale)

/-- The inner call the claim prescribes for `set_min` on `y = a·x + b`:
the corresponding operation on `x` for positive `a`, the swapped operation
for negative `a`, with ceiling division in the lower-bound direction and
floor division in the upper-bound direction. -/
def claimSetMinCall (v : Affine) (bound : Int) : IntSetCall :=
  if v.scale > 0 then .setMin (divCeil (bound - v.offset) v.scale)
  else .setMax (divFloor (bound - v.offset) v.scale)

/-! ### Interval domains — src/crates/core/src/integer/interval_domain.rs -/

/-- `IntInterval`: current bounds plus the pre-allocated bound-literal
array `L[lo₀ … hi₀ + 1]` (`L[v] ≡ x ≥ v`). -/
structure IntInterval where
  lowerBound : Int
  upperBound : Int
  literals : List Lit

/-- `IntIntervalFactory::create`: a fresh domain takes
`hi₀ − lo₀ + 2` literals (here `fresh i` is the i-th literal yielded by
`new_lits()`). -/
def IntInterval.create (lo hi : Int) (fresh : Nat → Lit) : IntInterval :=
  { lowerBound := lo
    upperBound := hi
    literals := (List.range ((hi - lo).toNat + 2)).map fresh }

/-- `IntInterval::literal(value)`: index
`value.abs_diff(lower_bound).min(literals.len() − 1)` into the array.  Note
`abs_diff`: a value below `lower_bound` indexes by its distance BELOW the
bound, it does not saturate to index 0. -/
def IntInterval.literal (d : IntInterval) (value : Int) : Lit :=
  let idx := min (value - d.lowerBound).natAbs (d.literals.length - 1)
  d.literals.getD idx ⟨0⟩

/-- `IntInterval::upper_bound_lit(bound)`: `!self.literal(bound + 1)`. -/
def IntInterval.upperBoundLit (d : IntInterval) (bound : Int) : Lit :=
  (d.literal (bound + 1)).not

/-- `IntInterval::lower_bound_lit(bound)`: `self.literal(bound)`. -/
def IntInterval.lowerBoundLit (d : IntInterval) (bound : Int) : Lit :=
  d.literal bound

/-! ### Linear-integer propagator — src/crates/constraints/src/linear_leq.rs

`LinearLeq::propagate` reads each term's lower bound (`term.min(ctx)`; no
call in the loop changes a lower bound, so the reads equal the initial
minima), computes `new_max = rhs − optimistic_lhs − term_lb`, assembles the
explanation from `explanation_base` by `swap_remove`, and calls
`term.set_max`.  After the loop the function hits `todo!()`. -/

/-- A lower-bound atom `x_i ≥ bound` of the explanation base, recorded as
(term index, bound). -/
abbrev LbAtom := Nat × Int

/-- `Vec::swap_remove(idx)`: return the element at `idx` and the vector with
the last element moved into `idx` (callers only use it on valid indices). -/
def swapRemoveAt (l : List LbAtom) (i : Nat) : LbAtom × List LbAtom :=
  (l.getD i (0, 0), (l.set i (l.getLastD (0, 0))).dropLast)

/-- `Vec::swap(i, j)` on the explanation base. -/
def swapAtoms (l : List LbAtom) (i j : Nat) : List LbAtom :=
  (l.set i (l.getD j (0, 0))).set j (l.getD i (0, 0))

/-- One record per loop iteration: the term index, the bound passed to
`set_max`, and the explanation handed to it. -/
structure SetMaxCall where
  idx : Nat
  newMax : Int
  explanation : List LbAtom
deriving DecidableEq, Repr

/-- The `for (idx, term)` loop of `LinearLeq::propagate` (lines 66–81),
accumulating the `set_max` calls it issues. -/
def linearLeqLoop (rhs optimistic : Int) :
    List (Nat × Int) → List LbAtom → List SetMaxCall → List SetMaxCall
  | [], _, acc => acc
  | (idx, termLb) :: rest, base, acc =>
      let newMax := rhs - optimistic - termLb
      let (minLit, base1) := swapRemoveAt base idx
      let explanation := base1
      let base2 := base1 ++ [minLit]
      let len := base2.length - 1
      let base3 := swapAtoms base2 idx len
      linearLeqLoop rhs optimistic rest base3 (acc ++ [⟨idx, newMax, explanation⟩])

/-- The sequence of `set_max` calls issued by `LinearLeq::propagate` for
terms with the given lower bounds (`optimistic_lhs = Σ min(xᵢ)`,
`explanation_base = [xᵢ ≥ min(xᵢ)]`). -/
def linearLeqCalls (rhs : Int) (mins : List Int) : List SetMaxCall :=
  let optimistic := mins.sum
  let base := mins.enum
  linearLeqLoop rhs optimistic mins.enum base []

/-- The bound `LinearLeq::propagate` passes to `xₖ.set_max` (lines 67–68):
`rhs − optimistic_lhs − term_lb`. -/
def linearLeqNewMax (rhs : Int) (mins : List Int) (k : Nat) : Int :=
  rhs - mins.sum - mins.getD k 0

/-- The bound the claim prescribes for `xₖ`: `c − (s − min(xₖ))`. -/
def claimNewMax (rhs : Int) (mins : List Int) (k : Nat) : Int :=
  rhs - (mins.sum - mins.getD k 0)

/-- Outcome of one `LinearLeq::propagate` call: either some `set_max`
conflicts, or the trailing `todo!()` is reached — the function can never
return `Ok`. -/
inductive LinearLeqOutcome where
  | conflictAt (k : Nat)
  | todoPanic
deriving DecidableEq, Repr

/-- `LinearLeq::propagate`, with the success of each `set_max` call (which
depends on solver state outside this propagator) supplied as a predicate:
the first conflicting call aborts with `Err`, and completion of the loop
reaches `todo!()`. -/
def linearLeqPropagate (rhs : Int) (mins : List Int)
    (setMaxConflicts : Nat → Int → Bool) : LinearLeqOutcome :=
  match (List.range mins.length).find?
      (fun k => setMaxConflicts k (linearLeqNewMax rhs mins k)) with
  | some k => .conflictAt k
  | none => .todoPanic

/-! ### Solver state — src/crates/core/src/solver.rs and
src/crates/core/src/propagation/mod.rs

Propagator explanations are conjunctions of atoms over domains; an atom is a
domain id together with a bound atom (`AtLeast`/`AtMost`). -/

abbrev Explanation := List (Nat × IntAtom)

/-- `Reason` (src/crates/core/src/propagation/reason.rs). -/
inductive Reason where
  | decision
  | clauseRef (c : Nat)
  | explanation (propagatedLit : Lit) (explanation : Explanation)

/-- The payload of `Conflict::Propagator` returned by
`PropositionalState::enqueue`. -/
structure PropConflict where
  lit : Lit
  explanation : Explanation

/-- `SearchTree` (src/crates/core/src/search_tree.rs). -/
structure SearchTree where
  currentDepth : Nat
  decidedAt : Var → Nat

/-- `SearchTree::register_assignment(lit)`. -/
def SearchTree.registerAssignment (t : SearchTree) (lit : Lit) : SearchTree :=
  { t with decidedAt := fun v => if v = lit.var then t.currentDepth else t.decidedAt v }

/-- `LitWatch` (src/crates/core/src/propagation/watch_list.rs). -/
inductive LitWatch where
  | clauseRef (c : Nat)
  | propagator (propagatorId : Nat) (localId : Nat)
  | domainEvent (domainId : Nat) (event : Nat)
deriving DecidableEq, Repr

/-- The solver components touched by propagation and enqueueing.  Clauses
are stored by index (`ClauseRef`); watch lists are keyed by literal. -/
structure SolverState where
  trail : List Lit
  assignment : Assignment
  implicationGraph : Var → Reason
  searchTree : SearchTree
  clauses : List (List Lit)
  watchList : Lit → List LitWatch
  eventWatches : Nat → Nat → List Nat
  propagatorQueue : PropagatorQueue
  nextPropagationIdx : Nat

/-- `PropositionalState::enqueue` (src/crates/core/src/propagation/mod.rs
lines 139–153): a literal that is already false yields
`Err(Conflict { lit, explanation })`; otherwise the literal is pushed on the
trail, its reason recorded, its level registered and its value assigned. -/
def propositionalEnqueue (s : SolverState) (lit : Lit) (e : Explanation) :
    Except PropConflict Unit × SolverState :=
  if s.assignment.value lit = some false then (.error ⟨lit, e⟩, s)
  else
    (.ok (),
     { s with
       trail := s.trail ++ [lit]
       implicationGraph := fun v =>
         if v = lit.var then .explanation lit e else s.implicationGraph v
       searchTree := s.searchTree.registerAssignment lit
       assignment := s.assignment.assign lit })

/-- `Solver::enqueue` (src/crates/core/src/solver.rs lines 171–182). -/
def solverEnqueue (s : SolverState) (lit : Lit) (reason : Reason) :
    Bool × SolverState :=
  if s.assignment.value lit = some false then (false, s)
  else
    (true,
     { s with
       trail := s.trail ++ [lit]
       assignment := s.assignment.assign lit
       implicationGraph := fun v =>
         if v = lit.var then reason else s.implicationGraph v
       searchTree := s.searchTree.registerAssignment lit })

/-! ### Propositional propagation — src/crates/core/src/solver.rs -/

/-- `<[T]>::swap(i, j)` on a clause. -/
def listSwap (l : List Lit) (i j : Nat) : List Lit :=
  (l.set i (l.getD j ⟨0⟩)).set j (l.getD i ⟨0⟩)

/-- Store back a mutated clause. -/
def setClause (s : SolverState) (c : Nat) (lits : List Lit) : SolverState :=
  { s with clauses := s.clauses.set c lits }

/-- `self.watch_list[lit].push(w)`. -/
def pushWatch (s : SolverState) (l : Lit) (w : LitWatch) : SolverState :=
  { s with watchList := fun x => if x = l then s.watchList l ++ [w] else s.watchList x }

/-- `Solver::propagate_clause` (lines 278–319): move the false literal to
position 1, keep the watcher if position 0 is true, otherwise look for a
non-false candidate from position 2 onwards and move the watcher, and
otherwise propagate position 0, keeping the watcher. -/
def propagateClause (s0 : SolverState) (clauseRef : Nat) (falseLit : Lit) :
    Bool × SolverState :=
  let clause0 := s0.clauses.getD clauseRef []
  let clause := if clause0.getD 0 ⟨0⟩ = falseLit then listSwap clause0 0 1 else clause0
  let s := setClause s0 clauseRef clause
  if s.assignment.value (clause.getD 0 ⟨0⟩) = some true then
    (true, pushWatch s falseLit (.clauseRef clauseRef))
  else
    match (clause.drop 2).findIdx? (fun cand => !(s.assignment.value cand == some false)) with
    | some j =>
        let idx := j + 2
        let clause' := listSwap clause 1 idx
        let s' := setClause s clauseRef clause'
        (true, pushWatch s' (clause'.getD 1 ⟨0⟩) (.clauseRef clauseRef))
    | none =>
        let s' := pushWatch s falseLit (.clauseRef clauseRef)
        solverEnqueue s' (clause.getD 0 ⟨0⟩) (.clauseRef clauseRef)

/-- The `for i in 0..watches.len()` loop of `Solver::propagate_propositional`
(lines 235–272): process each watch of the false literal in order; on a
clause conflict, copy the unvisited watches back onto the literal's list,
set the propagation index to the trail length, and return the conflict. -/
def processWatches (falseLit : Lit) :
    List LitWatch → SolverState → Except (Nat × SolverState) SolverState
  | [], s => .ok s
  | w :: rest, s =>
      match w with
      | .clauseRef c =>
          let (succeeded, s') := propagateClause s c falseLit
          if succeeded then processWatches falseLit rest s'
          else
            let s'' := rest.foldl (fun t cw => pushWatch t falseLit cw) s'
            .error (c, { s'' with nextPropagationIdx := s''.trail.length })
      | .propagator pid _ =>
          processWatches falseLit rest
            { s with propagatorQueue := s.propagatorQueue.push pid }
      | .domainEvent did ev =>
          let q := (s.eventWatches did ev).foldl (fun q pid => q.push pid) s.propagatorQueue
          processWatches falseLit rest { s with propagatorQueue := q }

/-- `std::mem::take(&mut self.watch_list[false_lit])`. -/
def takeWatches (s : SolverState) (l : Lit) : List LitWatch × SolverState :=
  (s.watchList l, { s with watchList := fun x => if x = l then [] else s.watchList x })

/-- Result of `Solver::propagate_propositional`. -/
inductive PropResult where
  | ok (s : SolverState)
  | conflict (c : Nat) (s : SolverState)
  | outOfFuel (s : SolverState)

/-- `Solver::propagate_propositional` (lines 222–276).  The `while` loop over
the trail is bounded by fuel; the loop body reads the trail literal, advances
the propagation index, takes the literal's watch list and processes it. -/
def propagatePropositional : Nat → SolverState → PropResult
  | 0, s => .outOfFuel s
  | fuel + 1, s =>
      if s.nextPropagationIdx < s.trail.length then
        let trailLit := s.trail.getD s.nextPropagationIdx ⟨0⟩
        let falseLit := trailLit.not
        let s1 := { s with nextPropagationIdx := s.nextPropagationIdx + 1 }
        let (watches, s2) := takeWatches s1 falseLit
        match processWatches falseLit watches s2 with
        | .error (c, s') => .conflict c s'
        | .ok s' => propagatePropositional fuel s'
      else .ok s

/-! ### Conflict analysis — src/crates/core/src/analysis.rs

`implication_graph.reason(var).as_clause(clauses, domains)` materializes a
reason: a decision yields the empty slice, a clause reference yields the
stored literals, an explanation yields `propagated_lit :: ¬atoms`.  The
analyzer only consumes this materialized form, so reasons enter the model as
a function from variables to either a decision marker or the materialized
literal list. -/

inductive AReason where
  | decision
  | clauseLits (lits : List Lit)

/-- `Reason::as_clause`. -/
def AReason.asClause : AReason → List Lit
  | .decision => []
  | .clauseLits ls => ls

/-- The analyzer's working state (`ConflictAnalyzer`): the clause buffer, the
number of unresolved current-level literals, the seen flags and the list of
flagged variables. -/
structure AnalysisState where
  buffer : List Lit
  currentLevelCount : Nat
  seen : Var → Bool
  toClear : List Var

/-- `ConflictAnalyzer::add_literal` (lines 154–171); the call to
`brancher.on_variable_activated` only mutates the brancher and is omitted. -/
def addLiteral (dl : Var → Nat) (depth : Nat) (a : AnalysisState) (lit : Lit) :
    AnalysisState :=
  if dl lit.var > 0 && !a.seen lit.var then
    let a1 := { a with
      seen := fun v => if v = lit.var then true else a.seen v
      toClear := a.toClear ++ [lit.var] }
    if dl lit.var == depth then { a1 with currentLevelCount := a1.currentLevelCount + 1 }
    else { a1 with buffer := a1.buffer ++ [lit] }
  else a

/-- Outcome of the trail-resolution loop (lines 77–123): `panic` for a failed
`assert!`, `exhausted` when the `for` loop runs out of trail, `uip` for the
`break` after the asserting literal was pushed and swapped to position 0. -/
inductive LoopOut where
  | panic
  | exhausted (a : AnalysisState)
  | uip (a : AnalysisState)

/-- The trail-resolution loop of `ConflictAnalyzer::analyze`, recursing over
the reversed trail. -/
def conflictLoop (dl : Var → Nat) (depth : Nat) (reasonOf : Var → AReason) :
    List Lit → AnalysisState → LoopOut
  | [], a => .exhausted a
  | lit :: rest, a =>
      if a.currentLevelCount = 0 then .panic
      else if !a.seen lit.var then conflictLoop dl depth reasonOf rest a
      else
        let a1 := { a with currentLevelCount := a.currentLevelCount - 1 }
        if a1.currentLevelCount = 0 then
          let buf := a1.buffer ++ [lit.not]
          .uip { a1 with buffer := listSwap buf 0 (buf.length - 1) }
        else
          match (reasonOf lit.var).asClause with
          | [] => .panic
          | r0 :: rtail =>
              if r0 = lit then
                conflictLoop dl depth reasonOf rest (rtail.foldl (addLiteral dl depth) a1)
              else .panic

/-- Resetting the flags set during a failed minimization DFS
(`for var in self.to_clear.drain(top..) { self.seen[var] = false; }`). -/
def rollbackSeen (seen : Var → Bool) (toClear : List Var) (top : Nat) :
    (Var → Bool) × List Var :=
  (fun v => if v ∈ toClear.drop top then false else seen v, toClear.take top)

/-- The `for &reason_lit in reason_lits.iter()` loop of the minimization DFS
(lines 204–224); `none` reports that an unseen decision at level > 0 was hit
(`continue 'next_lit`). -/
def dfsScanReasons (dl : Var → Nat) (reasonOf : Var → AReason) :
    List Lit → List Lit → (Var → Bool) → List Var →
    Option (List Lit × (Var → Bool) × List Var)
  | [], stack, seen, toClear => some (stack, seen, toClear)
  | p :: ps, stack, seen, toClear =>
      if !seen p.var && dl p.var > 0 then
        match reasonOf p.var with
        | .decision => none
        | .clauseLits _ =>
            dfsScanReasons dl reasonOf ps (stack ++ [p.not])
              (fun v => if v = p.var then true else seen v) (toClear ++ [p.var])
      else dfsScanReasons dl reasonOf ps stack seen toClear

/-- The `while let Some(lit) = self.stack.pop()` DFS (lines 199–225), bounded
by fuel; running out of fuel is reported like a hit decision (the literal
under scrutiny is conservatively kept).  `Vec::pop` takes the back element. -/
def minimizeDfs (dl : Var → Nat) (reasonOf : Var → AReason) :
    Nat → List Lit → (Var → Bool) → List Var → Option ((Var → Bool) × List Var)
  | 0, _, _, _ => none
  | fuel + 1, stack, seen, toClear =>
      match stack.getLast? with
      | none => some (seen, toClear)
      | some lit =>
          let stack' := stack.dropLast
          match dfsScanReasons dl reasonOf ((reasonOf lit.var).asClause) stack' seen toClear with
          | none => none
          | some (stack'', seen', toClear') => minimizeDfs dl reasonOf fuel stack'' seen' toClear'

/-- `Vec::swap_remove(i)` on the clause buffer. -/
def swapRemoveLit (l : List Lit) (i : Nat) : List Lit :=
  (l.set i (l.getLastD ⟨0⟩)).dropLast

/-- The `'next_lit` loop of `ConflictAnalyzer::minimize_clause`
(lines 180–228). -/
def minimizeLoop (dl : Var → Nat) (reasonOf : Var → AReason) (fuel : Nat) :
    Nat → List Lit → (Var → Bool) → List Var → List Lit × (Var → Bool) × List Var
  | idx, buffer, seen, toClear =>
    if h : idx + 1 < buffer.length then
      let idx' := idx + 1
      let lit := buffer.getD idx' ⟨0⟩
      match reasonOf lit.var with
      | .decision => minimizeLoop dl reasonOf fuel idx' buffer seen toClear
      | .clauseLits _ =>
          let top := toClear.length
          match minimizeDfs dl reasonOf fuel [lit.not] seen toClear with
          | some (seen', toClear') =>
              minimizeLoop dl reasonOf fuel idx' (swapRemoveLit buffer idx') seen' toClear'
          | none =>
              let (seen', toClear') := rollbackSeen seen toClear top
              minimizeLoop dl reasonOf fuel idx' buffer seen' toClear'
    else (buffer, seen, toClear)
termination_by idx buffer _ _ => buffer.length - idx
decreasing_by
  · omega
  · simp only [swapRemoveLit, List.length_dropLast, List.length_set]
    omega
  · omega

/-- `Iterator::max_by_key` over `(idx, decision level)` pairs starting from
`skip(1)`, with `unwrap_or((0, 0))`; on ties the LAST maximal element wins. -/
def maxLevelFrom (dl : Var → Nat) (pairs : List (Nat × Lit)) : Nat × Nat :=
  pairs.foldl
    (fun acc p => let l := dl p.2.var; if l ≥ acc.2 then (p.1, l) else acc)
    (0, 0)

/-- `ConflictAnalyzer::analyze` (lines 46–152): seed the state from the
conflict clause, resolve along the reversed trail, minimize, and compute the
backjump level, swapping the literal with the highest remaining level to
index 1.  `none` models a failed `assert!`. -/
def analyze (dl : Var → Nat) (depth : Nat) (reasonOf : Var → AReason) (fuel : Nat)
    (conflictLits : List Lit) (trail : List Lit) : Option (List Lit × Nat) :=
  let a0 : AnalysisState :=
    { buffer := [], currentLevelCount := 0, seen := fun _ => false, toClear := [] }
  let a1 := conflictLits.foldl (addLiteral dl depth) a0
  match conflictLoop dl depth reasonOf trail.reverse a1 with
  | .panic => none
  | .exhausted a2 | .uip a2 =>
      let (buffer, _, _) := minimizeLoop dl reasonOf fuel 0 a2.buffer a2.seen a2.toClear
      let (idx, backjumpLevel) := maxLevelFrom dl (buffer.enum.drop 1)
      let buffer := if idx > 1 then listSwap buffer 1 idx else buffer
      some (buffer, backjumpLevel)

/-- Spec §5 ordering guarantee, as a hypothesis on the reversed trail: the
reason of a literal precedes the literal itself, i.e. the tail of any
materialized reason mentions only variables appearing later in the reversed
trail. -/
def reasonsEarlier (reasonOf : Var → AReason) : List Lit → Prop
  | [] => True
  | lit :: rest =>
      (∀ p ∈ ((reasonOf lit.var).asClause).drop 1, p.var ∈ rest.map Lit.var) ∧
      reasonsEarlier reasonOf rest

instance reasonsEarlierDecidable (reasonOf : Var → AReason) :
    (l : List Lit) → Decidable (reasonsEarlier reasonOf l)
  | [] => .isTrue trivial
  | lit :: rest =>
      have : Decidable (reasonsEarlier reasonOf rest) := reasonsEarlierDecidable reasonOf rest
      decidable_of_iff
        ((∀ p ∈ ((reasonOf lit.var).asClause).drop 1, p.var ∈ rest.map Lit.var) ∧
          reasonsEarlier reasonOf rest)
        (by simp [reasonsEarlier])

/-- The analyzer's working invariant relative to the not-yet-visited part of
the reversed trail: the current-level counter counts exactly the seen
current-level trail literals still to be visited, and every buffered literal
has a positive decision level different from the conflict level. -/
def AnalysisInv (dl : Var → Nat) (depth : Nat) (a : AnalysisState) (rev : List Lit) : Prop :=
  a.currentLevelCount
      = (rev.filter (fun l => a.seen l.var && dl l.var == depth)).length ∧
  ∀ l ∈ a.buffer, 0 < dl l.var ∧ dl l.var ≠ depth

/-! ### Concrete states used to evaluate theorems with hypotheses -/

/-- An assignment in which variable 0 is false and everything else is
unassigned. -/
def asgVar0False : Assignment :=
  fun v => if v = ⟨0⟩ then some false else none

/-- An assignment in which variables 0 and 1 are both false. -/
def asgVars01False : Assignment :=
  fun v => if v = ⟨0⟩ then some false else if v = ⟨1⟩ then some false else none

/-- A solver state in which variable 0 is assigned false. -/
def stateVar0False : SolverState :=
  { trail := [Lit.negative ⟨0⟩]
    assignment := asgVar0False
    implicationGraph := fun _ => .decision
    searchTree := { currentDepth := 0, decidedAt := fun _ => 0 }
    clauses := []
    watchList := fun _ => []
    eventWatches := fun _ _ => []
    propagatorQueue := .empty
    nextPropagationIdx := 0 }

/-- A solver state holding the falsified clause `x0 ∨ x1`, both variables
assigned false. -/
def stateConflictClause : SolverState :=
  { trail := [Lit.negative ⟨0⟩, Lit.negative ⟨1⟩]
    assignment := asgVars01False
    implicationGraph := fun _ => .decision
    searchTree := { currentDepth := 1, decidedAt := fun _ => 1 }
    clauses := [[Lit.positive ⟨0⟩, Lit.positive ⟨1⟩]]
    watchList := fun _ => []
    eventWatches := fun _ _ => []
    propagatorQueue := .empty
    nextPropagationIdx := 2 }

/-- The same conflicting state, with propagation still pending and the
falsified clause watched (plus one propagator watch) on `x0`. -/
def stateConflictQueued : SolverState :=
  { stateConflictClause with
    nextPropagationIdx := 0
    watchList := fun l => if l = Lit.positive ⟨0⟩ then [.clauseRef 0, .propagator 5 0] else [] }

/-- A conflict-analysis scenario: the decision `x0` and the propagated `x1`
are both at level 1, and the clause `¬x1 ∨ ¬x0` is conflicting. -/
def litA0 : Lit := Lit.positive ⟨0⟩

def litA1 : Lit := Lit.positive ⟨1⟩

/-- Decision levels for the scenario: every variable sits at level 1. -/
def dlA : Var → Nat := fun _ => 1

/-- Reasons for the scenario: `x1` was propagated by the clause `x1 ∨ ¬x0`,
everything else is a decision. -/
def reasonA : Var → AReason := fun v =>
  if v = ⟨1⟩ then .clauseLits [litA1, litA0.not] else .decision

/-- The scenario's trail: `x0` then `x1`. -/
def trailA : List Lit := [litA0, litA1]

/-- The scenario's conflicting clause `¬x1 ∨ ¬x0`. -/
def confA : List Lit := [litA1.not, litA0.not]

end Limiga

namespace Limiga

/-! ## Theorems -/

/-! ### Basic literal lemmas -/

theorem Nat.two_mul_xor_one (m : Nat) : (2 * m) ^^^ 1 = 2 * m + 1 := by
  apply Nat.eq_of_testBit_eq
  intro i
  rw [Nat.testBit_xor]
  cases i with
  | zero => simp [Nat.testBit_zero, Nat.mul_add_mod]
  | succ j =>
      simp only [Nat.testBit_add_one]
      have h1 : (2 * m) / 2 = m := by omega
      have h2 : (2 * m + 1) / 2 = m := by omega
      have h3 : (1 : Nat) / 2 = 0 := by omega
      simp [h1, h2, h3]

theorem Nat.two_mul_add_one_xor_one (m : Nat) : (2 * m + 1) ^^^ 1 = 2 * m := by
  apply Nat.eq_of_testBit_eq
  intro i
  rw [Nat.testBit_xor]
  cases i with
  | zero => simp [Nat.testBit_zero, Nat.mul_add_mod]
  | succ j =>
      simp only [Nat.testBit_add_one]
      have h1 : (2 * m) / 2 = m := by omega
      have h2 : (2 * m + 1) / 2 = m := by omega
      have h3 : (1 : Nat) / 2 = 0 := by omega
      simp [h1, h2, h3]

/-- The code of a negated literal: the low bit is toggled. -/
theorem Lit.not_code_eq (l : Lit) :
    l.not.code = if l.code % 2 = 0 then l.code + 1 else l.code - 1 := by
  rcases Nat.even_or_odd l.code with ⟨m, hm⟩ | ⟨m, hm⟩
  · have : l.code = 2 * m := by omega
    simp [Lit.not, this, Nat.two_mul_xor_one, Nat.mul_add_mod]
  · have : l.code = 2 * m + 1 := by omega
    simp [Lit.not, this, Nat.two_mul_add_one_xor_one, Nat.mul_add_mod]

/-- Negation preserves the variable. -/
theorem Lit.var_not (l : Lit) : l.not.var = l.var := by
  rcases Nat.even_or_odd l.code with ⟨m, hm⟩ | ⟨m, hm⟩
  · have h : l.code = 2 * m := by omega
    simp [Lit.var, Lit.not, h, Nat.two_mul_xor_one]
    omega
  · have h : l.code = 2 * m + 1 := by omega
    simp [Lit.var, Lit.not, h, Nat.two_mul_add_one_xor_one]
    omega

/-- Negation is involutive. -/
theorem Lit.not_not (l : Lit) : l.not.not = l := by
  simp [Lit.not, Nat.xor_assoc]

/-- A literal differs from its negation. -/
theorem Lit.not_ne (l : Lit) : l.not ≠ l := by
  intro h
  have hc : l.not.code = l.code := congrArg Lit.code h
  rw [Lit.not_code_eq] at hc
  by_cases h2 : l.code % 2 = 0 <;> simp [h2] at hc <;> omega

/-! ### Claim C3 — the propagator queue is not FIFO -/

/-- Claim C3: the claim states that `pop` returns propagator ids in FIFO
order of first insertion.  The code's `pop` calls `Vec::pop`, which removes
the BACK element, so after pushing 0 then 1 onto the empty queue, `pop`
returns id 1 and not the first-pushed id 0 — the method's own documentation
("Remove the first propagator id from the queue") prescribes the latter. -/
theorem propagatorQueue_pop_lifo :
    ((PropagatorQueue.empty.push 0).push 1).pop.1 = some 1 ∧
    ((PropagatorQueue.empty.push 0).push 1).pop.1 ≠ some 0 := by
  constructor
  · rfl
  · decide

/-! ### Claim C8 — VSIDS decay multiplies, it does not divide -/

/-- Claim C8, counterexample: with decay factor `1/2 ∈ (0,1)`, `on_conflict`
sets the bump amount to `1/2`, not to `1 / (1/2) = 2` as dividing by the
decay factor would. -/
theorem vsids_onConflict_not_divided :
    ¬ ((VsidsBrancher.new (1/2)).onConflict.activityIncrement
        = (VsidsBrancher.new (1/2)).activityIncrement / (1/2)) := by
  norm_num [VsidsBrancher.new, VsidsBrancher.onConflict]

/-- Claim C8 (amended): the bump amount starts at 1 and is MULTIPLIED by the
decay factor on every call to `on_conflict`; bumping a variable adds the
current bump amount to its activity (when no rescale triggers). -/
theorem vsids_bump_decay_amended (d : ℚ) (b : VsidsBrancher) (v : Var) :
    (VsidsBrancher.new d).activityIncrement = 1 ∧
    b.onConflict.activityIncrement = b.activityIncrement * b.decay ∧
    (b.activities v + b.activityIncrement ≤ (10 : ℚ) ^ 100 →
      (b.onVariableActivated v).activities v = b.activities v + b.activityIncrement) := by
  refine ⟨rfl, rfl, fun h => ?_⟩
  unfold VsidsBrancher.onVariableActivated
  have hng : ¬ (b.activities v + b.activityIncrement > (10 : ℚ) ^ 100) := not_lt.mpr h
  simp only [hng, if_false]
  cases hp : b.position v with
  | none => simp
  | some pos => simp [VsidsBrancher.siftUp]

/-- Witness for the amended claim C8 at a fresh brancher with decay `1/2`. -/
theorem vsids_bump_decay_amended_witness :
    (VsidsBrancher.new (1/2)).activities ⟨0⟩ + (VsidsBrancher.new (1/2)).activityIncrement
        ≤ (10 : ℚ) ^ 100 ∧
    ((VsidsBrancher.new (1/2)).onVariableActivated ⟨0⟩).activities ⟨0⟩
      = (VsidsBrancher.new (1/2)).activities ⟨0⟩ + (VsidsBrancher.new (1/2)).activityIncrement := by
  have h : (VsidsBrancher.new (1/2 : ℚ)).activities ⟨0⟩
      + (VsidsBrancher.new (1/2 : ℚ)).activityIncrement ≤ (10 : ℚ) ^ 100 := by
    norm_num [VsidsBrancher.new]
  exact ⟨h, (vsids_bump_decay_amended (1/2) (VsidsBrancher.new (1/2)) ⟨0⟩).2.2 h⟩

/-! ### Claim C6 — the affine view's `set_min`/`set_max` ignore the sign of
the scale -/

/-- Claim C6: the claim states `set_min` on `y = a·x + b` maps to the
SWAPPED operation on `x` when `a` is negative.  The code has no sign branch:
for `y = −x` and `set_min(y, 2)` it calls `x.set_min(⌈2/−1⌉) = x.set_min(−2)`
where the claim (and the sign handling in the adjacent
`lower_bound_atom`/`upper_bound_atom` of the same file) prescribes
`x.set_max(⌊2/−1⌋) = x.set_max(−2)`. -/
theorem affine_setMin_sign_bug :
    (Affine.mk (-1) 0).setMinCall 2 = .setMin (-2) ∧
    claimSetMinCall (Affine.mk (-1) 0) 2 = .setMax (-2) ∧
    IntSetCall.setMin (-2) ≠ IntSetCall.setMax (-2) := by
  refine ⟨by decide, by decide, by decide⟩

/-! ### Claim C1 — the linear-integer propagator's bound formula and the
trailing `todo!()` -/

/-- Claim C1: at terms `x₀, x₁` with `min(x₀) = min(x₁) = 1` and `c = 4`
(so `s = 2`), the code passes `c − s − min(xₖ) = 1` to every `set_max`,
whereas the claim (and spec §4.8.2) prescribe `c − (s − min(xₖ)) = 3`; the
explanations are `{xᵢ ≥ min(xᵢ) : i ≠ k}` as claimed; and when no `set_max`
conflicts the call runs into `todo!()` instead of returning success. -/
theorem linearLeq_propagate_bug :
    linearLeqNewMax 4 [1, 1] 0 = 1 ∧
    claimNewMax 4 [1, 1] 0 = 3 ∧
    (1 : Int) ≠ 3 ∧
    (linearLeqCalls 4 [1, 1]).map SetMaxCall.newMax = [1, 1] ∧
    (linearLeqCalls 4 [1, 1]).map SetMaxCall.explanation = [[(1, 1)], [(0, 1)]] ∧
    linearLeqPropagate 4 [1, 1] (fun _ _ => false) = .todoPanic := by
  decide

/-! ### Claim C9 — interval-domain bound literals -/

/-- Evaluating the pre-allocated literal array at a valid index. -/
theorem range_map_getD (n : Nat) (f : Nat → Lit) (i : Nat) (h : i < n) :
    ((List.range n).map f).getD i ⟨0⟩ = f i := by
  rw [List.getD_eq_getElem _ _ (by simpa using h)]
  simp

/-- Claim C9, counterexample: for the domain `[0, 1]` (literal array
`L[0..2]`), a query below the stored range does not saturate to the nearest
(bottom) end: `lower_bound_lit(−1)` indexes by `abs_diff` and returns `L[1]`
instead of `L[0]`. -/
theorem intInterval_below_range_not_saturating :
    (IntInterval.create 0 1 (fun i => Lit.positive ⟨i⟩)).lowerBoundLit (-1)
        = Lit.positive ⟨1⟩ ∧
    Lit.positive ⟨1⟩ ≠ Lit.positive ⟨0⟩ := by
  refine ⟨by decide, by decide⟩

/-- Claim C9 (amended): for a freshly created domain `[lo₀, hi₀]` with
literal array `L`, `upper_bound_lit(v) = ¬L[idx(v+1)]` and
`lower_bound_lit(v) = L[idx(v)]` where `idx(w) = min(|w − lo₀|, hi₀+1−lo₀)`:
on `[lo₀, hi₀+1]` this is the claimed `L[w]`, and queries above the range
saturate to the top literal, but queries below `lo₀` mirror the distance
upward via `abs_diff` instead of saturating to the bottom literal. -/
theorem intInterval_literal_indexing (lo hi : Int) (fresh : Nat → Lit) (v : Int)
    (hlohi : lo ≤ hi) :
    (IntInterval.create lo hi fresh).lowerBoundLit v
        = fresh (min (v - lo).natAbs ((hi - lo).toNat + 1)) ∧
    (IntInterval.create lo hi fresh).upperBoundLit v
        = (fresh (min (v + 1 - lo).natAbs ((hi - lo).toNat + 1))).not ∧
    (lo ≤ v → v ≤ hi + 1 →
      (IntInterval.create lo hi fresh).lowerBoundLit v = fresh (v - lo).toNat) := by
  have h21 : (hi - lo).toNat + 2 - 1 = (hi - lo).toNat + 1 := rfl
  refine ⟨?_, ?_, ?_⟩
  · simp only [IntInterval.lowerBoundLit, IntInterval.literal, IntInterval.create,
      List.length_map, List.length_range, h21]
    exact range_map_getD _ _ _ (by omega)
  · simp only [IntInterval.upperBoundLit, IntInterval.literal, IntInterval.create,
      List.length_map, List.length_range, h21]
    rw [range_map_getD _ _ _ (by omega)]
  · intro hv1 hv2
    simp only [IntInterval.lowerBoundLit, IntInterval.literal, IntInterval.create,
      List.length_map, List.length_range, h21]
    rw [range_map_getD _ _ _ (by omega)]
    congr 1
    omega

/-- Witness for the amended claim C9 at the domain `[0, 1]` and query 1. -/
theorem intInterval_literal_indexing_witness :
    (IntInterval.create 0 1 (fun i => Lit.positive ⟨i⟩)).lowerBoundLit 1
        = Lit.positive ⟨(min ((1 : Int) - 0).natAbs (((1 : Int) - 0).toNat + 1))⟩ ∧
    (IntInterval.create 0 1 (fun i => Lit.positive ⟨i⟩)).lowerBoundLit 1
        = Lit.positive ⟨((1 : Int) - 0).toNat⟩ :=
  ⟨(intInterval_literal_indexing 0 1 (fun i => Lit.positive ⟨i⟩) 1 (by norm_num)).1,
   (intInterval_literal_indexing 0 1 (fun i => Lit.positive ⟨i⟩) 1 (by norm_num)).2.2
     (by norm_num) (by norm_num)⟩

/-! ### Claim C10 — enqueueing an already-false literal -/

/-- Claim C10: enqueueing a literal that is currently false reports the
conflict (`Err` from `PropositionalState::enqueue`, `false` from
`Solver::enqueue`) and leaves the state — trail, assignment, implication
graph, search tree — exactly as it was. -/
theorem enqueue_false_literal_unchanged (s : SolverState) (lit : Lit)
    (e : Explanation) (r : Reason)
    (h : s.assignment.value lit = some false) :
    propositionalEnqueue s lit e = (.error ⟨lit, e⟩, s) ∧
    solverEnqueue s lit r = (false, s) := by
  constructor <;> simp [propositionalEnqueue, solverEnqueue, h]

/-- Witness for claim C10 at a state in which variable 0 is false. -/
theorem enqueue_false_literal_unchanged_witness :
    stateVar0False.assignment.value (Lit.positive ⟨0⟩) = some false ∧
    propositionalEnqueue stateVar0False (Lit.positive ⟨0⟩) []
        = (.error ⟨Lit.positive ⟨0⟩, []⟩, stateVar0False) ∧
    solverEnqueue stateVar0False (Lit.positive ⟨0⟩) .decision = (false, stateVar0False) := by
  have h : stateVar0False.assignment.value (Lit.positive ⟨0⟩) = some false := by rfl
  exact ⟨h, (enqueue_false_literal_unchanged _ _ [] .decision h).1,
    (enqueue_false_literal_unchanged _ _ [] .decision h).2⟩

/-! ### Claim C7 — ceiling/floor division in the affine bound atoms -/

/-- Flooring division is invariant under negating both operands. -/
theorem fdiv_neg_neg : ∀ (a b : Int), Int.fdiv (-a) (-b) = Int.fdiv a b
  | .ofNat 0, .ofNat 0 => rfl
  | .ofNat 0, .ofNat (_ + 1) => rfl
  | .ofNat 0, .negSucc _ => rfl
  | .ofNat (m + 1), .ofNat 0 => by
      show Int.fdiv (.negSucc m) 0 = Int.fdiv (.ofNat (m + 1)) (.ofNat 0)
      simp [Int.fdiv]
  | .ofNat (_ + 1), .ofNat (_ + 1) => rfl
  | .ofNat (_ + 1), .negSucc _ => rfl
  | .negSucc m, .ofNat 0 => by
      show Int.fdiv (.ofNat (m + 1)) (.ofNat 0) = Int.fdiv (.negSucc m) (.ofNat 0)
      simp [Int.fdiv]
  | .negSucc _, .ofNat (_ + 1) => rfl
  | .negSucc _, .negSucc _ => rfl

/-- For a positive divisor, `fdiv` is bounded by the true quotient. -/
theorem fdiv_bounds (a : Int) {b : Int} (hb : 0 < b) :
    b * Int.fdiv a b ≤ a ∧ a < b * (Int.fdiv a b + 1) := by
  have h := Int.fmod_add_fdiv a b
  have h1 := Int.fmod_nonneg' a hb
  have h2 := Int.fmod_lt_of_pos a hb
  constructor
  · linarith
  · have : b * (Int.fdiv a b + 1) = b * Int.fdiv a b + b := by ring
    linarith

/-- `Int.fdiv` is the floor of the rational quotient. -/
theorem fdiv_eq_floor (a b : Int) (hb : b ≠ 0) :
    Int.fdiv a b = ⌊(a : ℚ) / (b : ℚ)⌋ := by
  rcases lt_or_gt_of_ne hb with hneg | hpos
  · rw [← fdiv_neg_neg a b]
    have hb' : (0 : Int) < -b := by omega
    have key : Int.fdiv (-a) (-b) = ⌊((-a : Int) : ℚ) / ((-b : Int) : ℚ)⌋ := by
      symm
      rw [Int.floor_eq_iff]
      obtain ⟨hlo, hhi⟩ := fdiv_bounds (-a) hb'
      constructor
      · rw [le_div_iff (by exact_mod_cast hb')]
        calc ((Int.fdiv (-a) (-b) : Int) : ℚ) * ((-b : Int) : ℚ)
            = (((-b) * Int.fdiv (-a) (-b) : Int) : ℚ) := by push_cast; ring
          _ ≤ ((-a : Int) : ℚ) := by exact_mod_cast hlo
      · rw [div_lt_iff (by exact_mod_cast hb')]
        calc ((-a : Int) : ℚ)
            < (((-b) * (Int.fdiv (-a) (-b) + 1) : Int) : ℚ) := by exact_mod_cast hhi
          _ = (((Int.fdiv (-a) (-b) : Int) : ℚ) + 1) * ((-b : Int) : ℚ) := by push_cast; ring
    rw [key]
    congr 1
    push_cast
    rw [neg_div_neg_eq]
  · symm
    rw [Int.floor_eq_iff]
    obtain ⟨hlo, hhi⟩ := fdiv_bounds a hpos
    constructor
    · rw [le_div_iff (by exact_mod_cast hpos)]
      calc ((Int.fdiv a b : Int) : ℚ) * ((b : Int) : ℚ)
          = ((b * Int.fdiv a b : Int) : ℚ) := by push_cast; ring
        _ ≤ ((a : Int) : ℚ) := by exact_mod_cast hlo
    · rw [div_lt_iff (by exact_mod_cast hpos)]
      calc ((a : Int) : ℚ)
          < ((b * (Int.fdiv a b + 1) : Int) : ℚ) := by exact_mod_cast hhi
        _ = (((Int.fdiv a b : Int) : ℚ) + 1) * ((b : Int) : ℚ) := by push_cast; ring

/-- `divFloor` is the rational floor and `divCeil` the rational ceiling. -/
theorem divFloor_divCeil_eq (a b : Int) (hb : b ≠ 0) :
    divFloor a b = ⌊(a : ℚ) / (b : ℚ)⌋ ∧ divCeil a b = ⌈(a : ℚ) / (b : ℚ)⌉ := by
  constructor
  · exact fdiv_eq_floor a b hb
  · show -(Int.fdiv (-a) b) = _
    rw [fdiv_eq_floor (-a) b hb]
    rw [show ((-a : Int) : ℚ) / (b : ℚ) = -((a : ℚ) / (b : ℚ)) by push_cast; ring]
    rw [Int.floor_neg]
    ring

/-- Claim C7: for the affine view `y = a·x + b` with `a ≠ 0` and every bound
`b′`: for positive `a`, `lower_bound_atom(b′)` is the atom `x ≥ ⌈(b′−b)/a⌉`
and `upper_bound_atom(b′)` the atom `x ≤ ⌊(b′−b)/a⌋`; for negative `a` the
atoms swap: `lower_bound_atom(b′)` is `x ≤ ⌊(b′−b)/a⌋` and
`upper_bound_atom(b′)` is `x ≥ ⌈(b′−b)/a⌉`. -/
theorem affine_bound_atoms_division (sc off bound : Int) :
    (0 < sc →
      (Affine.mk sc off).lowerBoundAtom bound
          = .atLeast ⌈((bound : ℚ) - (off : ℚ)) / (sc : ℚ)⌉ ∧
      (Affine.mk sc off).upperBoundAtom bound
          = .atMost ⌊((bound : ℚ) - (off : ℚ)) / (sc : ℚ)⌋) ∧
    (sc < 0 →
      (Affine.mk sc off).lowerBoundAtom bound
          = .atMost ⌊((bound : ℚ) - (off : ℚ)) / (sc : ℚ)⌋ ∧
      (Affine.mk sc off).upperBoundAtom bound
          = .atLeast ⌈((bound : ℚ) - (off : ℚ)) / (sc : ℚ)⌉) := by
  have hcast : ((bound - off : Int) : ℚ) = (bound : ℚ) - (off : ℚ) := by push_cast; ring
  constructor
  · intro hpos
    have hne : sc ≠ 0 := by omega
    obtain ⟨hf, hc⟩ := divFloor_divCeil_eq (bound - off) sc hne
    constructor
    · simp only [Affine.lowerBoundAtom, if_pos (le_of_lt hpos)]
      rw [hc, hcast]
    · simp only [Affine.upperBoundAtom, if_pos (le_of_lt hpos)]
      rw [hf, hcast]
  · intro hneg
    have hne : sc ≠ 0 := by omega
    have hnotge : ¬ (sc ≥ 0) := by omega
    obtain ⟨hf, hc⟩ := divFloor_divCeil_eq (bound - off) sc hne
    constructor
    · simp only [Affine.lowerBoundAtom, if_neg hnotge]
      rw [hf, hcast]
    · simp only [Affine.upperBoundAtom, if_neg hnotge]
      rw [hc, hcast]

/-- Witness for claim C7 at scales 2 and −2, offset 1, bound 4. -/
theorem affine_bound_atoms_division_witness :
    (Affine.mk 2 1).lowerBoundAtom 4
        = .atLeast ⌈(((4 : Int) : ℚ) - ((1 : Int) : ℚ)) / ((2 : Int) : ℚ)⌉ ∧
    (Affine.mk (-2) 1).lowerBoundAtom 4
        = .atMost ⌊(((4 : Int) : ℚ) - ((1 : Int) : ℚ)) / (((-2) : Int) : ℚ)⌋ :=
  ⟨((affine_bound_atoms_division 2 1 4).1 (by norm_num)).1,
   ((affine_bound_atoms_division (-2) 1 4).2 (by norm_num)).1⟩

/-! ### Claim C4 — the clause preprocessor -/

theorem mem_dedupLits : ∀ (l : List Lit) (x : Lit), x ∈ dedupLits l ↔ x ∈ l
  | [], x => by simp [dedupLits]
  | [a], x => by simp [dedupLits]
  | a :: b :: rest, x => by
      by_cases hab : a = b
      · rw [show dedupLits (a :: b :: rest) = dedupLits (b :: rest) by
          simp [dedupLits, hab]]
        rw [mem_dedupLits (b :: rest) x]
        subst hab
        simp [List.mem_cons]
      · rw [show dedupLits (a :: b :: rest) = a :: dedupLits (b :: rest) by
          simp [dedupLits, hab]]
        simp [List.mem_cons, mem_dedupLits (b :: rest) x]

theorem dedupLits_pairwise_lt : ∀ (l : List Lit), l.Pairwise litLE →
    (dedupLits l).Pairwise (fun x y => x.code < y.code)
  | [], _ => by simp [dedupLits]
  | [a], _ => by simp [dedupLits]
  | a :: b :: rest, hp => by
      have hab_le : litLE a b := (List.pairwise_cons.mp hp).1 b (by simp)
      have htail : (b :: rest).Pairwise litLE := (List.pairwise_cons.mp hp).2
      by_cases hab : a = b
      · rw [show dedupLits (a :: b :: rest) = dedupLits (b :: rest) by
          simp [dedupLits, hab]]
        exact dedupLits_pairwise_lt (b :: rest) htail
      · rw [show dedupLits (a :: b :: rest) = a :: dedupLits (b :: rest) by
          simp [dedupLits, hab]]
        refine List.pairwise_cons.mpr ⟨?_, dedupLits_pairwise_lt (b :: rest) htail⟩
        intro y hy
        have hy' : y ∈ b :: rest := (mem_dedupLits _ y).mp hy
        have hcodes_ne : a.code ≠ b.code := fun h => hab (by cases a; cases b; simp_all)
        have hab_lt : a.code < b.code := lt_of_le_of_ne hab_le hcodes_ne
        rcases List.mem_cons.mp hy' with rfl | hy2
        · exact hab_lt
        · have hby : litLE b y := (List.pairwise_cons.mp htail).1 y hy2
          exact lt_of_lt_of_le hab_lt hby

theorem adjComp_exists : ∀ (l : List Lit), adjComp l → ∃ x ∈ l, x.not ∈ l
  | [], h => absurd h (by simp [adjComp])
  | [_], h => absurd h (by simp [adjComp])
  | a :: b :: rest, h => by
      have h' : a = b.not ∨ adjComp (b :: rest) := h
      rcases h' with h1 | h2
      · exact ⟨a, by simp, by rw [h1, Lit.not_not]; simp⟩
      · obtain ⟨x, hx, hxn⟩ := adjComp_exists (b :: rest) h2
        exact ⟨x, List.mem_cons_of_mem a hx, List.mem_cons_of_mem a hxn⟩

/-- A strictly sorted list whose head's negation occurs in the tail starts
with an adjacent complementary pair (the codes differ by exactly one). -/
theorem adjComp_head_not_mem (a : Lit) (rest : List Lit)
    (hp : (a :: rest).Pairwise (fun p q => p.code < q.code))
    (hmem : a.not ∈ rest) : adjComp (a :: rest) := by
  cases rest with
  | nil => simp at hmem
  | cons r0 rest' =>
      have hhead := (List.pairwise_cons.mp hp).1
      have htail := (List.pairwise_cons.mp hp).2
      show a = r0.not ∨ adjComp (r0 :: rest')
      left
      rcases List.mem_cons.mp hmem with h | h
      · rw [← h, Lit.not_not]
      · exfalso
        have h1 : a.code < r0.code := hhead r0 (by simp)
        have h2 : r0.code < a.not.code := (List.pairwise_cons.mp htail).1 _ h
        have h3 := Lit.not_code_eq a
        by_cases hpar : a.code % 2 = 0 <;> simp [hpar] at h3 <;> omega

theorem adjComp_of_both_mem (x : Lit) : ∀ (l : List Lit),
    l.Pairwise (fun p q => p.code < q.code) → x ∈ l → x.not ∈ l → adjComp l
  | [], _, hx, _ => by simp at hx
  | a :: rest, hp, hx, hxn => by
      rcases List.mem_cons.mp hx with rfl | hx'
      · have hxn' : x.not ∈ rest := by
          rcases List.mem_cons.mp hxn with h | h
          · exact absurd h (Lit.not_ne x)
          · exact h
        exact adjComp_head_not_mem x rest hp hxn'
      · rcases List.mem_cons.mp hxn with ha | hxn'
        · have hmem : a.not ∈ rest := by rw [← ha, Lit.not_not]; exact hx'
          exact adjComp_head_not_mem a rest hp hmem
        · have htail := (List.pairwise_cons.mp hp).2
          have h := adjComp_of_both_mem x rest htail hx' hxn'
          cases rest with
          | nil => simp at hx'
          | cons r0 rest' => exact Or.inr h

theorem scanSatisfiable_iff (a : Assignment) : ∀ (l : List Lit),
    scanSatisfiable a l = true ↔ (∃ x ∈ l, a.value x = some true) ∨ adjComp l
  | [] => by simp [scanSatisfiable, adjComp]
  | [x] => by simp [scanSatisfiable, adjComp]
  | x :: y :: rest => by
      rw [show adjComp (x :: y :: rest) = (x = y.not ∨ adjComp (y :: rest)) from rfl]
      rw [show scanSatisfiable a (x :: y :: rest)
          = (a.value x == some true || x == y.not || scanSatisfiable a (y :: rest)) from rfl]
      simp only [Bool.or_eq_true, beq_iff_eq]
      rw [scanSatisfiable_iff a (y :: rest)]
      simp only [List.mem_cons]
      constructor
      · rintro ((hv | hy) | (⟨z, hz, hvz⟩ | hadj))
        · exact Or.inl ⟨x, Or.inl rfl, hv⟩
        · exact Or.inr (Or.inl hy)
        · exact Or.inl ⟨z, Or.inr hz, hvz⟩
        · exact Or.inr (Or.inr hadj)
      · rintro (⟨z, (rfl | hz), hvz⟩ | (hy | hadj))
        · exact Or.inl (Or.inl hvz)
        · exact Or.inr (Or.inl ⟨z, hz, hvz⟩)
        · exact Or.inl (Or.inr hy)
        · exact Or.inr (Or.inr hadj)

/-- Claim C4, counterexample: with `x0` false at root, preprocessing the
clause `x0 ∨ x1` returns the clause with the root-false literal `x0` still
present; the claim prescribes its removal, i.e. the result `[x1]`. -/
theorem preprocess_keeps_root_false_lit :
    asgVar0False.value (Lit.positive ⟨0⟩) = some false ∧
    preprocess asgVar0False [Lit.positive ⟨0⟩, Lit.positive ⟨1⟩]
        = .lits [Lit.positive ⟨0⟩, Lit.positive ⟨1⟩] ∧
    PreProcessedClause.lits [Lit.positive ⟨0⟩, Lit.positive ⟨1⟩]
        ≠ .lits [Lit.positive ⟨1⟩] := by
  refine ⟨rfl, rfl, by decide⟩

/-- Claim C4 (amended): `preprocess` removes duplicate literals (sorting the
buffer and deduplicating), returns `Satisfiable` exactly when the clause
contains a root-true literal or both polarities of some variable, and
otherwise returns the remaining distinct literals in sorted order — WITHOUT
removing literals that are false at root. -/
theorem preprocess_characterization (a : Assignment) (lits : List Lit) :
    (preprocess a lits = .satisfiable ↔
      (∃ x ∈ lits, a.value x = some true) ∨ (∃ x ∈ lits, x.not ∈ lits)) ∧
    (∀ l, preprocess a lits = .lits l →
      l = dedupLits (sortLits lits) ∧ l.Nodup ∧ (∀ x, x ∈ l ↔ x ∈ lits) ∧
      (∀ x ∈ l, a.value x ≠ some true)) := by
  have hmem : ∀ x, x ∈ dedupLits (sortLits lits) ↔ x ∈ lits := by
    intro x
    rw [mem_dedupLits]
    exact List.mem_insertionSort litLE
  have hsorted : (sortLits lits).Pairwise litLE := List.sorted_insertionSort litLE lits
  have hpl : (dedupLits (sortLits lits)).Pairwise (fun p q => p.code < q.code) :=
    dedupLits_pairwise_lt _ hsorted
  have hiff : scanSatisfiable a (dedupLits (sortLits lits)) = true ↔
      (∃ x ∈ lits, a.value x = some true) ∨ (∃ x ∈ lits, x.not ∈ lits) := by
    rw [scanSatisfiable_iff]
    constructor
    · rintro (⟨x, hx, hv⟩ | hadj)
      · exact Or.inl ⟨x, (hmem x).mp hx, hv⟩
      · obtain ⟨x, hx, hxn⟩ := adjComp_exists _ hadj
        exact Or.inr ⟨x, (hmem x).mp hx, (hmem _).mp hxn⟩
    · rintro (⟨x, hx, hv⟩ | ⟨x, hx, hxn⟩)
      · exact Or.inl ⟨x, (hmem x).mpr hx, hv⟩
      · exact Or.inr (adjComp_of_both_mem x _ hpl ((hmem x).mpr hx) ((hmem _).mpr hxn))
  have hpre : preprocess a lits
      = if scanSatisfiable a (dedupLits (sortLits lits)) then .satisfiable
        else .lits (dedupLits (sortLits lits)) := rfl
  constructor
  · rw [hpre]
    by_cases hs : scanSatisfiable a (dedupLits (sortLits lits)) = true
    · rw [if_pos hs]
      exact ⟨fun _ => hiff.mp hs, fun _ => rfl⟩
    · rw [if_neg hs]
      constructor
      · intro h
        exact absurd h (by simp)
      · intro h
        exact absurd (hiff.mpr h) hs
  · intro l hl
    rw [hpre] at hl
    by_cases hs : scanSatisfiable a (dedupLits (sortLits lits)) = true
    · rw [if_pos hs] at hl
      exact absurd hl (by simp)
    · rw [if_neg hs] at hl
      have hleq : l = dedupLits (sortLits lits) := by
        injection hl with h
        exact h.symm
      subst hleq
      refine ⟨rfl, ?_, hmem, ?_⟩
      · exact hpl.imp (fun {p q} hpq heq => absurd (heq ▸ hpq) (lt_irrefl _))
      · intro x hx hv
        exact hs ((scanSatisfiable_iff a _).mpr (Or.inl ⟨x, hx, hv⟩))

/-- Witness for the amended claim C4 on the clause `x0 ∨ x1 ∨ x0` under the
empty assignment. -/
theorem preprocess_characterization_witness :
    [Lit.positive ⟨0⟩, Lit.positive ⟨1⟩]
        = dedupLits (sortLits [Lit.positive ⟨0⟩, Lit.positive ⟨1⟩, Lit.positive ⟨0⟩]) ∧
    [Lit.positive ⟨0⟩, Lit.positive ⟨1⟩].Nodup ∧
    (∀ x, x ∈ [Lit.positive ⟨0⟩, Lit.positive ⟨1⟩]
        ↔ x ∈ [Lit.positive ⟨0⟩, Lit.positive ⟨1⟩, Lit.positive ⟨0⟩]) ∧
    (∀ x ∈ [Lit.positive ⟨0⟩, Lit.positive ⟨1⟩],
        Assignment.value (fun _ => none) x ≠ some true) :=
  (preprocess_characterization (fun _ => none)
    [Lit.positive ⟨0⟩, Lit.positive ⟨1⟩, Lit.positive ⟨0⟩]).2
    [Lit.positive ⟨0⟩, Lit.positive ⟨1⟩] rfl

/-! ### Claim C5 — conflicts during watch-list iteration -/

theorem pushWatch_trail (s : SolverState) (fl : Lit) (w : LitWatch) :
    (pushWatch s fl w).trail = s.trail := rfl

theorem foldl_pushWatch_trail (fl : Lit) :
    ∀ (ws : List LitWatch) (s : SolverState),
    (ws.foldl (fun t cw => pushWatch t fl cw) s).trail = s.trail
  | [], s => rfl
  | w :: ws, s => by
      rw [List.foldl_cons]
      rw [foldl_pushWatch_trail fl ws (pushWatch s fl w)]
      rfl

theorem mem_pushWatch (s : SolverState) (fl : Lit) (w u : LitWatch)
    (h : u ∈ s.watchList fl ∨ u = w) : u ∈ (pushWatch s fl w).watchList fl := by
  simp only [pushWatch, if_pos rfl]
  rcases h with h | rfl
  · exact List.mem_append_left _ h
  · exact List.mem_append_right _ (by simp)

theorem mem_foldl_pushWatch (fl : Lit) :
    ∀ (ws : List LitWatch) (s : SolverState) (u : LitWatch),
    u ∈ ws ∨ u ∈ s.watchList fl →
    u ∈ (ws.foldl (fun t cw => pushWatch t fl cw) s).watchList fl
  | [], s, u, h => by
      rcases h with h | h
      · simp at h
      · exact h
  | w :: ws, s, u, h => by
      rw [List.foldl_cons]
      rcases h with h | h
      · rcases List.mem_cons.mp h with rfl | h2
        · exact mem_foldl_pushWatch fl ws _ u (Or.inr (mem_pushWatch s fl u u (Or.inr rfl)))
        · exact mem_foldl_pushWatch fl ws _ u (Or.inl h2)
      · exact mem_foldl_pushWatch fl ws _ u (Or.inr (mem_pushWatch s fl w u (Or.inl h)))

theorem processWatches_clauseRef_eq (falseLit : Lit) (cref : Nat) (rest : List LitWatch)
    (s : SolverState) :
    processWatches falseLit (.clauseRef cref :: rest) s
      = (match propagateClause s cref falseLit with
         | (succeeded, s1) =>
             if succeeded then processWatches falseLit rest s1
             else
               let s2 := rest.foldl (fun t cw => pushWatch t falseLit cw) s1
               .error (cref, { s2 with nextPropagationIdx := s2.trail.length })) := rfl

theorem processWatches_propagator_eq (falseLit : Lit) (pid lid : Nat) (rest : List LitWatch)
    (s : SolverState) :
    processWatches falseLit (.propagator pid lid :: rest) s
      = processWatches falseLit rest
          { s with propagatorQueue := s.propagatorQueue.push pid } := rfl

theorem processWatches_domainEvent_eq (falseLit : Lit) (did ev : Nat) (rest : List LitWatch)
    (s : SolverState) :
    processWatches falseLit (.domainEvent did ev :: rest) s
      = processWatches falseLit rest
          { s with propagatorQueue :=
              (s.eventWatches did ev).foldl (fun q pid => q.push pid) s.propagatorQueue } := rfl

/-- If a conflict arises while the watch vector of the false literal is
processed, the unvisited suffix is put back on the literal's watch list and
the propagation index is set to the trail length. -/
theorem processWatches_conflict_restores (falseLit : Lit) :
    ∀ (ws : List LitWatch) (s : SolverState) (c : Nat) (s' : SolverState),
    processWatches falseLit ws s = .error (c, s') →
    s'.nextPropagationIdx = s'.trail.length ∧
    ∃ visited w unvisited, ws = visited ++ w :: unvisited ∧
      ∀ u ∈ unvisited, u ∈ s'.watchList falseLit
  | [], s, c, s', h => by
      simp [processWatches] at h
  | w :: rest, s, c, s', h => by
      match w with
      | .clauseRef cref =>
          rw [processWatches_clauseRef_eq] at h
          rcases hpc : propagateClause s cref falseLit with ⟨succeeded, s1⟩
          rw [hpc] at h
          dsimp only at h
          by_cases hsuc : succeeded = true
          · rw [if_pos hsuc] at h
            obtain ⟨h1, visited, w', unvisited, hsplit, hrest⟩ :=
              processWatches_conflict_restores falseLit rest s1 c s' h
            exact ⟨h1, .clauseRef cref :: visited, w', unvisited, by rw [hsplit]; rfl, hrest⟩
          · rw [if_neg hsuc] at h
            rw [Except.error.injEq, Prod.mk.injEq] at h
            obtain ⟨rfl, hs'⟩ := h
            subst hs'
            refine ⟨by rw [foldl_pushWatch_trail], [], .clauseRef cref, rest, rfl, ?_⟩
            intro u hu
            exact mem_foldl_pushWatch falseLit rest s1 u (Or.inl hu)
      | .propagator pid lid =>
          rw [processWatches_propagator_eq] at h
          obtain ⟨h1, visited, w', unvisited, hsplit, hrest⟩ :=
            processWatches_conflict_restores falseLit rest _ c s' h
          exact ⟨h1, .propagator pid lid :: visited, w', unvisited, by rw [hsplit]; rfl, hrest⟩
      | .domainEvent did ev =>
          rw [processWatches_domainEvent_eq] at h
          obtain ⟨h1, visited, w', unvisited, hsplit, hrest⟩ :=
            processWatches_conflict_restores falseLit rest _ c s' h
          exact ⟨h1, .domainEvent did ev :: visited, w', unvisited, by rw [hsplit]; rfl, hrest⟩

/-- Claim C5: if `propagate_propositional` returns a conflict, the conflict
arose while processing the watch vector `ws` of some false literal ℓ; on
return every watch of `ws` after the conflicting one (the unvisited ones)
is on ℓ's watch list, and the propagation index over the trail equals the
trail's length at the point of conflict. -/
theorem propagatePropositional_conflict_restores :
    ∀ (fuel : Nat) (s : SolverState) (c : Nat) (s' : SolverState),
    propagatePropositional fuel s = .conflict c s' →
    s'.nextPropagationIdx = s'.trail.length ∧
    ∃ falseLit ws s0 visited w unvisited,
      processWatches falseLit ws s0 = .error (c, s') ∧
      ws = visited ++ w :: unvisited ∧
      ∀ u ∈ unvisited, u ∈ s'.watchList falseLit
  | 0, s, c, s', h => by simp [propagatePropositional] at h
  | fuel + 1, s, c, s', h => by
      rw [propagatePropositional] at h
      by_cases hlt : s.nextPropagationIdx < s.trail.length
      · rw [if_pos hlt] at h
        dsimp only [takeWatches] at h
        cases hpw : processWatches (s.trail.getD s.nextPropagationIdx ⟨0⟩).not
            (s.watchList (s.trail.getD s.nextPropagationIdx ⟨0⟩).not)
            { s with
              nextPropagationIdx := s.nextPropagationIdx + 1
              watchList := fun x =>
                if x = (s.trail.getD s.nextPropagationIdx ⟨0⟩).not then []
                else ({ s with
                        nextPropagationIdx := s.nextPropagationIdx + 1 } : SolverState).watchList x }
            with
        | error p =>
            rcases p with ⟨c2, s2⟩
            rw [hpw] at h
            dsimp only at h
            rw [PropResult.conflict.injEq] at h
            obtain ⟨rfl, rfl⟩ := h
            obtain ⟨h1, visited, w', unvisited, hsplit, hmem⟩ :=
              processWatches_conflict_restores _ _ _ _ _ hpw
            exact ⟨h1, _, _, _, visited, w', unvisited, hpw, hsplit, hmem⟩
        | ok s2 =>
            rw [hpw] at h
            dsimp only at h
            exact propagatePropositional_conflict_restores fuel s2 c s' h
      · rw [if_neg hlt] at h
        exact absurd h (by simp)

/-- Witness for claim C5: the falsified clause `x0 ∨ x1` watched on `x0`
conflicts during propagation of the trail literal `¬x0`; the unvisited
propagator watch ends up back on `x0`'s list and the propagation index
equals the trail length. -/
theorem propagatePropositional_conflict_restores_witness :
    ∃ c s', propagatePropositional 3 stateConflictQueued = .conflict c s' ∧
      (s'.nextPropagationIdx = s'.trail.length ∧
       ∃ falseLit ws s0 visited w unvisited,
         processWatches falseLit ws s0 = .error (c, s') ∧
         ws = visited ++ w :: unvisited ∧
         ∀ u ∈ unvisited, u ∈ s'.watchList falseLit) := by
  obtain ⟨c, s', h⟩ : ∃ c s',
      propagatePropositional 3 stateConflictQueued = .conflict c s' := ⟨_, _, rfl⟩
  exact ⟨c, s', h, propagatePropositional_conflict_restores 3 _ _ _ h⟩

/-! ### Claim C2 — list helper lemmas -/

theorem getD_concat_length : ∀ (bs : List Lit) (x d : Lit), (bs ++ [x]).getD bs.length d = x
  | [], _, _ => rfl
  | b :: bs, x, d => by
      rw [List.cons_append, List.length_cons, List.getD_cons_succ]
      exact getD_concat_length bs x d

theorem set_concat_length : ∀ (bs : List Lit) (x b : Lit),
    (bs ++ [x]).set bs.length b = bs ++ [b]
  | [], _, _ => rfl
  | c :: cs, x, b => by
      rw [List.cons_append, List.length_cons, List.set_cons_succ,
        set_concat_length cs x b, List.cons_append]

theorem getD_mem_of_lt (l : List Lit) (n : Nat) (d : Lit) (h : n < l.length) :
    l.getD n d ∈ l := by
  rw [List.getD_eq_getElem l d h]
  exact List.getElem_mem h

/-- Swapping position 0 with the last position of `l ++ [x]` puts `x` at the
head, and every later position holds an element of `l`. -/
theorem listSwap_append_last (l : List Lit) (x : Lit) :
    (listSwap (l ++ [x]) 0 ((l ++ [x]).length - 1)).getD 0 ⟨0⟩ = x ∧
    ∀ y ∈ (listSwap (l ++ [x]) 0 ((l ++ [x]).length - 1)).drop 1, y ∈ l := by
  cases l with
  | nil =>
      constructor
      · rfl
      · intro y hy
        simp [listSwap] at hy
  | cons b0 bs =>
      have hlen : ((b0 :: bs) ++ [x]).length - 1 = bs.length + 1 := by simp
      rw [hlen]
      have hg1 : ((b0 :: bs) ++ [x]).getD (bs.length + 1) ⟨0⟩ = x := by
        rw [List.cons_append, List.getD_cons_succ]
        exact getD_concat_length bs x _
      have hg0 : ((b0 :: bs) ++ [x]).getD 0 ⟨0⟩ = b0 := by
        rw [List.cons_append, List.getD_cons_zero]
      rw [listSwap, hg1, hg0, List.cons_append]
      rw [show (b0 :: (bs ++ [x])).set 0 x = x :: (bs ++ [x]) from rfl]
      rw [List.set_cons_succ, set_concat_length bs x b0]
      constructor
      · rfl
      · intro y hy
        rw [List.drop_one, List.tail_cons] at hy
        rcases List.mem_append.mp hy with h | h
        · exact List.mem_cons_of_mem _ h
        · rw [List.mem_singleton.mp h]
          exact List.mem_cons_self _ _

/-- Swapping two positions ≥ 1 keeps the head and keeps every later
position's element within the original tail. -/
theorem listSwap_tail_facts (b0 : Lit) (bt : List Lit) (i j : Nat)
    (hi : 1 ≤ i) (hj : 1 ≤ j) (hilen : i < (b0 :: bt).length)
    (hjlen : j < (b0 :: bt).length) :
    (listSwap (b0 :: bt) i j).getD 0 ⟨0⟩ = b0 ∧
    ∀ y ∈ (listSwap (b0 :: bt) i j).drop 1, y ∈ bt := by
  obtain ⟨i', rfl⟩ : ∃ i', i = i' + 1 := ⟨i - 1, by omega⟩
  obtain ⟨j', rfl⟩ : ∃ j', j = j' + 1 := ⟨j - 1, by omega⟩
  have hi' : i' < bt.length := by simpa using hilen
  have hj' : j' < bt.length := by simpa using hjlen
  have hgj : (b0 :: bt).getD (j' + 1) ⟨0⟩ = bt.getD j' ⟨0⟩ := List.getD_cons_succ
  have hgi : (b0 :: bt).getD (i' + 1) ⟨0⟩ = bt.getD i' ⟨0⟩ := List.getD_cons_succ
  rw [listSwap, hgj, hgi, List.set_cons_succ, List.set_cons_succ]
  constructor
  · rfl
  · intro y hy
    rw [List.drop_one, List.tail_cons] at hy
    rcases List.mem_or_eq_of_mem_set hy with h | rfl
    · rcases List.mem_or_eq_of_mem_set h with h2 | rfl
      · exact h2
      · exact getD_mem_of_lt bt j' _ hj'
    · exact getD_mem_of_lt bt i' _ hi'

theorem foldr_max_spec : ∀ (l : List Nat),
    (∀ x ∈ l, x ≤ l.foldr max 0) ∧ (l.foldr max 0 = 0 ∨ l.foldr max 0 ∈ l)
  | [] => ⟨by simp, Or.inl rfl⟩
  | a :: l => by
      obtain ⟨h1, h2⟩ := foldr_max_spec l
      rw [List.foldr_cons]
      constructor
      · intro x hx
        rcases List.mem_cons.mp hx with rfl | hx
        · exact le_max_left _ _
        · exact le_trans (h1 x hx) (le_max_right _ _)
      · rcases Nat.le_total a (l.foldr max 0) with hle | hle
        · rw [max_eq_right hle]
          rcases h2 with h2 | h2
          · exact Or.inl h2
          · exact Or.inr (List.mem_cons_of_mem _ h2)
        · rw [max_eq_left hle]
          exact Or.inr (List.mem_cons_self _ _)

theorem maxLevelFrom_acc (dl : Var → Nat) : ∀ (pairs : List (Nat × Lit)) (acc : Nat × Nat),
    (pairs.foldl
        (fun acc p => let l := dl p.2.var; if l ≥ acc.2 then (p.1, l) else acc) acc = acc ∨
      ∃ p ∈ pairs,
        pairs.foldl
          (fun acc p => let l := dl p.2.var; if l ≥ acc.2 then (p.1, l) else acc) acc
          = (p.1, dl p.2.var)) ∧
    (pairs.foldl
        (fun acc p => let l := dl p.2.var; if l ≥ acc.2 then (p.1, l) else acc) acc).2
      = max acc.2 ((pairs.map (fun p => dl p.2.var)).foldr max 0)
  | [], acc => ⟨Or.inl rfl, by simp⟩
  | p :: ps, acc => by
      rw [List.foldl_cons, List.map_cons, List.foldr_cons]
      by_cases hge : dl p.2.var ≥ acc.2
      · have hstep : (let l := dl p.2.var; if l ≥ acc.2 then (p.1, l) else acc)
            = (p.1, dl p.2.var) := by
          simp only [if_pos hge]
        rw [hstep]
        obtain ⟨hdisj, hval⟩ := maxLevelFrom_acc dl ps (p.1, dl p.2.var)
        constructor
        · rcases hdisj with h | ⟨q, hq, h⟩
          · exact Or.inr ⟨p, List.mem_cons_self _ _, h⟩
          · exact Or.inr ⟨q, List.mem_cons_of_mem _ hq, h⟩
        · rw [hval]
          simp only []
          omega
      · have hstep : (let l := dl p.2.var; if l ≥ acc.2 then (p.1, l) else acc) = acc := by
          simp only [if_neg hge]
        rw [hstep]
        obtain ⟨hdisj, hval⟩ := maxLevelFrom_acc dl ps acc
        constructor
        · rcases hdisj with h | ⟨q, hq, h⟩
          · exact Or.inl h
          · exact Or.inr ⟨q, List.mem_cons_of_mem _ hq, h⟩
        · rw [hval]
          omega

/-! ### Claim C2 — properties of `add_literal` -/

/-- Marking a fresh current-level variable seen raises the count of seen
current-level literals in the remaining trail by exactly one. -/
theorem filter_length_mark (dl : Var → Nat) (depth : Nat) (v : Var) (hdl : dl v = depth) :
    ∀ (rev : List Lit) (seen : Var → Bool),
    (rev.map Lit.var).Nodup → v ∈ rev.map Lit.var → seen v = false →
    (rev.filter (fun l => (fun u => if u = v then true else seen u) l.var
        && dl l.var == depth)).length
      = (rev.filter (fun l => seen l.var && dl l.var == depth)).length + 1
  | [], _, _, hv, _ => by simp at hv
  | l :: rest, seen, hnd, hv, hs => by
      rw [List.map_cons] at hnd
      have hndtail : (rest.map Lit.var).Nodup := (List.nodup_cons.mp hnd).2
      by_cases hlv : l.var = v
      · have hvnotin : v ∉ rest.map Lit.var := by
          have h1 := (List.nodup_cons.mp hnd).1
          rw [hlv] at h1
          exact h1
        rw [List.filter_cons, List.filter_cons]
        have hnew : ((fun u => if u = v then true else seen u) l.var
            && dl l.var == depth) = true := by
          rw [hlv]
          simp [hdl]
        have hold : (seen l.var && dl l.var == depth) = false := by
          rw [hlv, hs]
          simp
        rw [hnew, hold]
        have hrest : rest.filter (fun l => (fun u => if u = v then true else seen u) l.var
              && dl l.var == depth)
            = rest.filter (fun l => seen l.var && dl l.var == depth) := by
          apply List.filter_congr
          intro x hx
          have hxv : x.var ≠ v := fun he => hvnotin (he ▸ List.mem_map_of_mem Lit.var hx)
          simp [hxv]
        rw [hrest]
        simp
      · have hv' : v ∈ rest.map Lit.var := by
          rcases List.mem_cons.mp ((List.map_cons Lit.var l rest) ▸ hv) with h | h
          · exact absurd h.symm hlv
          · exact h
        rw [List.filter_cons, List.filter_cons]
        have heq : ((fun u => if u = v then true else seen u) l.var && dl l.var == depth)
            = (seen l.var && dl l.var == depth) := by
          simp [hlv]
        rw [heq]
        by_cases hp : (seen l.var && dl l.var == depth) = true
        · rw [if_pos hp, if_pos hp]
          simp only [List.length_cons]
          rw [filter_length_mark dl depth v hdl rest seen hndtail hv' hs]
        · rw [if_neg hp, if_neg hp]
          exact filter_length_mark dl depth v hdl rest seen hndtail hv' hs

theorem addLiteral_seen_mono (dl : Var → Nat) (depth : Nat) (a : AnalysisState) (lit : Lit)
    (v : Var) (hv : a.seen v = true) : (addLiteral dl depth a lit).seen v = true := by
  unfold addLiteral
  split
  · split
    · simp only
      split
      · rfl
      · exact hv
    · simp only
      split
      · rfl
      · exact hv
  · exact hv

theorem foldl_seen_mono (dl : Var → Nat) (depth : Nat) :
    ∀ (lits : List Lit) (a : AnalysisState) (v : Var), a.seen v = true →
    ((lits.foldl (addLiteral dl depth) a).seen v = true)
  | [], _, _, hv => hv
  | x :: xs, a, v, hv =>
      foldl_seen_mono dl depth xs (addLiteral dl depth a x) v
        (addLiteral_seen_mono dl depth a x v hv)

theorem addLiteral_count_mono (dl : Var → Nat) (depth : Nat) (a : AnalysisState) (lit : Lit) :
    a.currentLevelCount ≤ (addLiteral dl depth a lit).currentLevelCount := by
  unfold addLiteral
  split
  · split <;> simp
  · exact le_refl _

theorem foldl_count_mono (dl : Var → Nat) (depth : Nat) :
    ∀ (lits : List Lit) (a : AnalysisState),
    a.currentLevelCount ≤ ((lits.foldl (addLiteral dl depth) a).currentLevelCount)
  | [], _ => le_refl _
  | x :: xs, a =>
      le_trans (addLiteral_count_mono dl depth a x)
        (foldl_count_mono dl depth xs (addLiteral dl depth a x))

theorem addLiteral_fold_marks (dl : Var → Nat) (depth : Nat) :
    ∀ (lits : List Lit) (a : AnalysisState) (l : Lit), l ∈ lits → 0 < dl l.var →
    ((lits.foldl (addLiteral dl depth) a).seen l.var = true)
  | [], _, _, hl, _ => absurd hl (List.not_mem_nil _)
  | x :: xs, a, l, hl, hdl => by
      rcases List.mem_cons.mp hl with rfl | hl'
      · rw [List.foldl_cons]
        apply foldl_seen_mono
        unfold addLiteral
        by_cases hseen : a.seen l.var = true
        · split
          · split <;> · simp only; split <;> simp_all
          · exact hseen
        · have hguard : (dl l.var > 0 && !a.seen l.var) = true := by
            simp only [Bool.and_eq_true, decide_eq_true_eq, Bool.not_eq_true']
            exact ⟨hdl, by simpa using hseen⟩
          rw [if_pos hguard]
          split <;> simp
      · exact addLiteral_fold_marks dl depth xs (addLiteral dl depth a x) l hl' hdl

/-- One `add_literal` call preserves the analyzer invariant. -/
theorem addLiteral_inv (dl : Var → Nat) (depth : Nat) (rev : List Lit)
    (hnd : (rev.map Lit.var).Nodup) (a : AnalysisState) (lit : Lit)
    (hmem : dl lit.var = depth → lit.var ∈ rev.map Lit.var)
    (hinv : AnalysisInv dl depth a rev) :
    AnalysisInv dl depth (addLiteral dl depth a lit) rev := by
  obtain ⟨hcount, hbuf⟩ := hinv
  unfold addLiteral
  by_cases hguard : (dl lit.var > 0 && !a.seen lit.var) = true
  · rw [if_pos hguard]
    have hunseen : a.seen lit.var = false := by
      rcases Bool.and_eq_true .. |>.mp hguard with ⟨_, h2⟩
      exact Bool.not_eq_true' .. |>.mp h2
    have hpos : 0 < dl lit.var := by
      rcases Bool.and_eq_true .. |>.mp hguard with ⟨h1, _⟩
      simpa using h1
    by_cases hld : dl lit.var = depth
    · have hbeq : (dl lit.var == depth) = true := by simp [hld]
      rw [if_pos hbeq]
      refine ⟨?_, hbuf⟩
      simp only
      rw [filter_length_mark dl depth lit.var hld rev a.seen hnd (hmem hld) hunseen]
      omega
    · have hbeq : (dl lit.var == depth) = false := by simp [hld]
      rw [if_neg (by simp [hbeq])]
      constructor
      · simp only
        rw [hcount]
        congr 1
        apply List.filter_congr
        intro x hx
        by_cases hxv : x.var = lit.var
        · rw [hxv]
          simp [hld]
        · simp [hxv]
      · intro l hl
        simp only at hl
        rcases List.mem_append.mp hl with h | h
        · exact hbuf l h
        · rw [List.mem_singleton.mp h]
          exact ⟨hpos, hld⟩
  · rw [if_neg hguard]
    exact ⟨hcount, hbuf⟩

/-- Folding `add_literal` over a literal list preserves the invariant,
provided current-level literals mention only variables of the remaining
trail. -/
theorem addLiteral_fold_inv (dl : Var → Nat) (depth : Nat) (rev : List Lit)
    (hnd : (rev.map Lit.var).Nodup) :
    ∀ (lits : List Lit) (a : AnalysisState),
    (∀ l ∈ lits, dl l.var = depth → l.var ∈ rev.map Lit.var) →
    AnalysisInv dl depth a rev →
    AnalysisInv dl depth (lits.foldl (addLiteral dl depth) a) rev
  | [], _, _, hinv => hinv
  | x :: xs, a, hmem, hinv => by
      apply addLiteral_fold_inv dl depth rev hnd xs (addLiteral dl depth a x)
      · intro l hl
        exact hmem l (List.mem_cons_of_mem _ hl)
      · exact addLiteral_inv dl depth rev hnd a x (hmem x (List.mem_cons_self _ _)) hinv

/-! ### Claim C2 — the trail-resolution loop -/

theorem listSwap_length (l : List Lit) (i j : Nat) : (listSwap l i j).length = l.length := by
  simp [listSwap]

/-- Under the analyzer invariant, resolving along the current-level part of
the reversed trail either panics (a failed `assert!`) or breaks at the first
UIP with the asserting literal at position 0 of the buffer: the loop cannot
run off the end of the trail, and every buffered literal below position 0
keeps a positive level different from the conflict level. -/
theorem conflictLoop_spec (dl : Var → Nat) (depth : Nat) (reasonOf : Var → AReason)
    (low : List Lit) (hlow : ∀ l ∈ low, dl l.var < depth) :
    ∀ (rev : List Lit) (a : AnalysisState),
    (∀ l ∈ rev, dl l.var = depth) →
    (((rev ++ low).map Lit.var).Nodup) →
    reasonsEarlier reasonOf (rev ++ low) →
    AnalysisInv dl depth a (rev ++ low) →
    0 < a.currentLevelCount →
    (conflictLoop dl depth reasonOf (rev ++ low) a = .panic) ∨
    (∃ a', conflictLoop dl depth reasonOf (rev ++ low) a = .uip a' ∧
      a'.buffer ≠ [] ∧ dl ((a'.buffer.getD 0 ⟨0⟩).var) = depth ∧
      (∀ l ∈ a'.buffer.drop 1, 0 < dl l.var ∧ dl l.var ≠ depth))
  | [], a, _, _, _, hinv, hpos => by
      exfalso
      obtain ⟨hcount, _⟩ := hinv
      rw [List.nil_append] at hcount
      have hfil : low.filter (fun l => a.seen l.var && dl l.var == depth) = [] := by
        rw [List.filter_eq_nil_iff]
        intro l hl
        have hll := hlow l hl
        simp only [Bool.and_eq_true, beq_iff_eq, not_and]
        intro _
        omega
      rw [hfil] at hcount
      simp at hcount
      omega
  | lit :: rest, a, hrev, hnd, hre, hinv, hpos => by
      obtain ⟨hcount, hbuf⟩ := hinv
      have hlitdepth : dl lit.var = depth := hrev lit (List.mem_cons_self _ _)
      have hconsapp : (lit :: rest) ++ low = lit :: (rest ++ low) := List.cons_append ..
      rw [hconsapp] at hcount hre hnd ⊢
      have hre2 : (∀ p ∈ ((reasonOf lit.var).asClause).drop 1,
            p.var ∈ (rest ++ low).map Lit.var) ∧
          reasonsEarlier reasonOf (rest ++ low) := hre
      have hndtail : ((rest ++ low).map Lit.var).Nodup := by
        rw [List.map_cons] at hnd
        exact (List.nodup_cons.mp hnd).2
      rw [conflictLoop]
      rw [if_neg (by omega)]
      by_cases hseen : a.seen lit.var = true
      · have hnotseen : (!a.seen lit.var) ≠ true := by simp [hseen]
        rw [if_neg hnotseen]
        have hfilcons :
            (lit :: (rest ++ low)).filter (fun l => a.seen l.var && dl l.var == depth)
              = lit :: ((rest ++ low).filter (fun l => a.seen l.var && dl l.var == depth)) := by
          rw [List.filter_cons, if_pos (by simp [hseen, hlitdepth])]
        rw [hfilcons] at hcount
        simp only [List.length_cons] at hcount
        by_cases hz : a.currentLevelCount - 1 = 0
        · rw [if_pos (by simpa using hz)]
          refine Or.inr ⟨_, rfl, ?_, ?_, ?_⟩
          · intro hemp
            have := congrArg List.length hemp
            rw [listSwap_length] at this
            simp at this
          · obtain ⟨hhead, _⟩ := listSwap_append_last a.buffer lit.not
            simp only
            rw [hhead, Lit.var_not]
            exact hlitdepth
          · obtain ⟨_, htail⟩ := listSwap_append_last a.buffer lit.not
            intro l hl
            exact hbuf l (htail l hl)
        · rw [if_neg (by simpa using hz)]
          rcases hrc : (reasonOf lit.var).asClause with _ | ⟨r0, rtail⟩
          · exact Or.inl rfl
          · dsimp only
            by_cases hr0 : r0 = lit
            · rw [if_pos hr0]
              apply conflictLoop_spec dl depth reasonOf low hlow rest
              · intro l hl
                exact hrev l (List.mem_cons_of_mem _ hl)
              · exact hndtail
              · exact hre2.2
              · apply addLiteral_fold_inv dl depth (rest ++ low) hndtail
                · intro p hp _
                  apply hre2.1
                  rw [hrc]
                  simpa using hp
                · exact ⟨by simp only; omega, hbuf⟩
              · have hm := foldl_count_mono dl depth rtail
                  { buffer := a.buffer, currentLevelCount := a.currentLevelCount - 1,
                    seen := a.seen, toClear := a.toClear }
                simp only at hm
                omega
            · rw [if_neg hr0]
              exact Or.inl rfl
      · have hseen' : (!a.seen lit.var) = true := by simp [hseen]
        rw [if_pos hseen']
        apply conflictLoop_spec dl depth reasonOf low hlow rest
        · intro l hl
          exact hrev l (List.mem_cons_of_mem _ hl)
        · exact hndtail
        · exact hre2.2
        · refine ⟨?_, hbuf⟩
          rw [hcount, List.filter_cons,
            if_neg (by simp [Bool.not_eq_true .. |>.mp hseen])]
        · exact hpos

/-! ### Claim C2 — clause minimization only shrinks the tail -/

theorem getLastD_mem : ∀ (l : List Lit) (d : Lit), l ≠ [] → l.getLastD d ∈ l
  | [], _, h => absurd rfl h
  | [a], d, _ => by simp [List.getLastD_cons]
  | a :: b :: t, d, _ => by
      rw [List.getLastD_cons]
      exact List.mem_cons_of_mem a (getLastD_mem (b :: t) a (by simp))

theorem swapRemoveLit_length (l : List Lit) (i : Nat) :
    (swapRemoveLit l i).length = l.length - 1 := by
  simp [swapRemoveLit]

/-- `swap_remove` at a position ≥ 1 keeps the head and moves only tail
elements around. -/
theorem swapRemoveLit_facts (b0 : Lit) (bt : List Lit) (i : Nat) (hi : 1 ≤ i)
    (hlen : i < (b0 :: bt).length) :
    (swapRemoveLit (b0 :: bt) i).getD 0 ⟨0⟩ = b0 ∧
    ∀ y ∈ (swapRemoveLit (b0 :: bt) i).drop 1, y ∈ bt := by
  obtain ⟨i', rfl⟩ : ∃ i', i = i' + 1 := ⟨i - 1, by omega⟩
  have hbt : bt ≠ [] := by
    intro h
    subst h
    simp at hlen
  have hsetne : bt.set i' ((b0 :: bt).getLastD ⟨0⟩) ≠ [] := by
    intro h
    apply hbt
    have := congrArg List.length h
    simpa using List.length_eq_zero.mp (by simpa using this)
  unfold swapRemoveLit
  rw [List.set_cons_succ, List.dropLast_cons_of_ne_nil hsetne]
  constructor
  · rfl
  · intro y hy
    rw [List.drop_one, List.tail_cons] at hy
    have hy1 := List.dropLast_subset _ hy
    rcases List.mem_or_eq_of_mem_set hy1 with h | rfl
    · exact h
    · rw [List.getLastD_cons]
      exact getLastD_mem bt b0 hbt

/-- The minimization loop keeps the head literal at position 0, keeps the
buffer nonempty, and only removes or permutes tail elements. -/
theorem minimizeLoop_preserves (dl : Var → Nat) (reasonOf : Var → AReason) (fuel : Nat) :
    ∀ (n idx : Nat) (b0 : Lit) (bt : List Lit) (seen : Var → Bool) (toClear : List Var),
    (b0 :: bt).length - idx ≤ n →
    (minimizeLoop dl reasonOf fuel idx (b0 :: bt) seen toClear).1.getD 0 ⟨0⟩ = b0 ∧
    (minimizeLoop dl reasonOf fuel idx (b0 :: bt) seen toClear).1 ≠ [] ∧
    ∀ y ∈ (minimizeLoop dl reasonOf fuel idx (b0 :: bt) seen toClear).1.drop 1, y ∈ bt
  | 0, idx, b0, bt, seen, toClear, hn => by
      unfold minimizeLoop
      rw [dif_neg (by simp at hn ⊢; omega)]
      exact ⟨rfl, by simp, fun y hy => by simpa using hy⟩
  | n + 1, idx, b0, bt, seen, toClear, hn => by
      unfold minimizeLoop
      by_cases hlt : idx + 1 < (b0 :: bt).length
      · rw [dif_pos hlt]
        dsimp only
        rcases hr : reasonOf ((b0 :: bt).getD (idx + 1) ⟨0⟩).var with _ | rlits
        · dsimp only
          exact minimizeLoop_preserves dl reasonOf fuel n (idx + 1) b0 bt seen toClear
            (by simp only [List.length_cons] at hn ⊢; omega)
        · dsimp only
          rcases hdfs : minimizeDfs dl reasonOf fuel
              [((b0 :: bt).getD (idx + 1) ⟨0⟩).not] seen toClear with _ | ⟨seen', toClear'⟩
          · dsimp only
            exact minimizeLoop_preserves dl reasonOf fuel n (idx + 1) b0 bt
              (rollbackSeen seen toClear toClear.length).1
              (rollbackSeen seen toClear toClear.length).2
              (by simp only [List.length_cons] at hn ⊢; omega)
          · dsimp only
            obtain ⟨hhead, htail⟩ := swapRemoveLit_facts b0 bt (idx + 1) (by omega) hlt
            rcases hsw : swapRemoveLit (b0 :: bt) (idx + 1) with _ | ⟨c0, ct⟩
            · exfalso
              have hlen := swapRemoveLit_length (b0 :: bt) (idx + 1)
              rw [hsw] at hlen
              simp only [List.length_nil, List.length_cons] at hlen hlt
              omega
            · have hc0 : c0 = b0 := by
                rw [hsw] at hhead
                simpa using hhead
              have hct : ∀ y ∈ ct, y ∈ bt := by
                intro y hy
                apply htail
                rw [hsw]
                simpa using hy
              have hlen := swapRemoveLit_length (b0 :: bt) (idx + 1)
              rw [hsw] at hlen
              simp only [List.length_cons] at hlen hn hlt
              obtain ⟨h1, h2, h3⟩ := minimizeLoop_preserves dl reasonOf fuel n (idx + 1)
                c0 ct seen' toClear' (by simp only [List.length_cons]; omega)
              exact ⟨h1.trans hc0, h2, fun y hy => hct _ (h3 y hy)⟩
      · rw [dif_neg hlt]
        exact ⟨rfl, by simp, fun y hy => by simpa using hy⟩

/-! ### Claim C2 — assembling the analyzer postcondition -/

theorem getD_one_mem_drop (c : Lit) (t : List Lit) (ht : t ≠ []) :
    (c :: t).getD 1 ⟨0⟩ ∈ t := by
  rw [List.getD_cons_succ]
  refine getD_mem_of_lt t 0 _ ?_
  cases t with
  | nil => exact absurd rfl ht
  | cons _ _ => simp

theorem listSwap_getD_one (l : List Lit) (j : Nat) (h1 : 1 < l.length) (hj : j < l.length)
    (hjne : j ≠ 1) :
    (listSwap l 1 j).getD 1 ⟨0⟩ = l.getD j ⟨0⟩ := by
  unfold listSwap
  have hlen1 : (1 : Nat) < ((l.set 1 (l.getD j ⟨0⟩)).set j (l.getD 1 ⟨0⟩)).length := by
    simpa using h1
  rw [List.getD_eq_getElem _ _ hlen1]
  rw [List.getElem_set_ne (by omega)]
  rw [List.getElem_set_self (by simpa using h1)]

theorem getD_one_mem_drop' (l : List Lit) (h : 1 < l.length) : l.getD 1 ⟨0⟩ ∈ l.drop 1 := by
  cases l with
  | nil => simp at h
  | cons c t =>
      rw [List.drop_one, List.tail_cons]
      refine getD_one_mem_drop c t ?_
      intro hnil
      rw [hnil] at h
      simp at h

/-- The minimization loop leaves a singleton buffer untouched. -/
theorem minimizeLoop_one (dl : Var → Nat) (reasonOf : Var → AReason) (fuel idx : Nat)
    (b : Lit) (seen : Var → Bool) (toClear : List Var) :
    minimizeLoop dl reasonOf fuel idx [b] seen toClear = ([b], seen, toClear) := by
  unfold minimizeLoop
  rw [dif_neg (by simp only [List.length_cons, List.length_nil]; omega)]

/-- Claim C2: every result returned by `ConflictAnalyzer::analyze` — under
the solver's trail guarantees (the current-level literals form the trail
suffix, below them all levels are smaller, no variable occurs twice, reasons
precede their consequences on the trail, the conflict clause mentions a
current-level trail variable, and the depth is positive) — is an asserting
clause: exactly one literal of the learned clause is at the conflict level
and it sits at position 0, the backjump level equals the maximum decision
level among the remaining literals (0 if there are none), and a literal
attaining that maximum sits at index 1. -/
theorem analyze_asserting_clause
    (dl : Var → Nat) (depth : Nat) (reasonOf : Var → AReason) (fuel : Nat)
    (conflictLits t1 t2 clause : List Lit) (bj : Nat)
    (hd : 0 < depth)
    (h1 : ∀ l ∈ t1, dl l.var < depth)
    (h2 : ∀ l ∈ t2, dl l.var = depth)
    (hnd : ((t1 ++ t2).map Lit.var).Nodup)
    (hre : reasonsEarlier reasonOf (t1 ++ t2).reverse)
    (hconf : ∀ l ∈ conflictLits, dl l.var = depth → l.var ∈ (t1 ++ t2).map Lit.var)
    (hsome : ∃ l ∈ conflictLits, dl l.var = depth)
    (hres : analyze dl depth reasonOf fuel conflictLits (t1 ++ t2) = some (clause, bj)) :
    clause ≠ [] ∧
    dl ((clause.getD 0 ⟨0⟩).var) = depth ∧
    (∀ l ∈ clause.drop 1, dl l.var ≠ depth) ∧
    bj = ((clause.drop 1).map (fun l => dl l.var)).foldr max 0 ∧
    (clause.drop 1 ≠ [] → dl ((clause.getD 1 ⟨0⟩).var) = bj) := by
  have hrevapp : (t1 ++ t2).reverse = t2.reverse ++ t1.reverse := List.reverse_append ..
  have hndrev : ((t2.reverse ++ t1.reverse).map Lit.var).Nodup := by
    rw [← hrevapp, List.map_reverse, List.nodup_reverse]
    exact hnd
  have hmemrev : ∀ v : Var,
      v ∈ (t1 ++ t2).map Lit.var → v ∈ (t2.reverse ++ t1.reverse).map Lit.var := by
    intro v hv
    rw [← hrevapp, List.map_reverse, List.mem_reverse]
    exact hv
  have hinv1 : AnalysisInv dl depth
      (conflictLits.foldl (addLiteral dl depth)
        { buffer := [], currentLevelCount := 0, seen := fun _ => false, toClear := [] })
      (t2.reverse ++ t1.reverse) := by
    apply addLiteral_fold_inv dl depth _ hndrev
    · intro l hl hld
      exact hmemrev l.var (hconf l hl hld)
    · constructor
      · simp
      · intro l hl
        simp at hl
  obtain ⟨lw, hlw, hlwd⟩ := hsome
  have hseenlw : (conflictLits.foldl (addLiteral dl depth)
      { buffer := [], currentLevelCount := 0, seen := fun _ => false,
        toClear := [] }).seen lw.var = true :=
    addLiteral_fold_marks dl depth conflictLits _ lw hlw (by omega)
  have hcntpos : 0 < (conflictLits.foldl (addLiteral dl depth)
      { buffer := [], currentLevelCount := 0, seen := fun _ => false,
        toClear := [] }).currentLevelCount := by
    obtain ⟨hcount, _⟩ := hinv1
    rw [hcount]
    have hv : lw.var ∈ (t2.reverse ++ t1.reverse).map Lit.var :=
      hmemrev lw.var (hconf lw hlw hlwd)
    obtain ⟨lt', hlt', hvar⟩ := List.mem_map.mp hv
    have hmemfil : lt' ∈ (t2.reverse ++ t1.reverse).filter
        (fun l => (conflictLits.foldl (addLiteral dl depth)
          { buffer := [], currentLevelCount := 0, seen := fun _ => false,
            toClear := [] }).seen l.var && dl l.var == depth) := by
      rw [List.mem_filter]
      refine ⟨hlt', ?_⟩
      rw [hvar]
      simp [hseenlw, hlwd]
    have hne := List.ne_nil_of_mem hmemfil
    have := List.length_pos.mpr hne
    omega
  have hloop := conflictLoop_spec dl depth reasonOf t1.reverse
      (fun l hl => h1 l (List.mem_reverse.mp hl))
      t2.reverse _
      (fun l hl => h2 l (List.mem_reverse.mp hl))
      hndrev
      (by rw [← hrevapp]; exact hre)
      hinv1 hcntpos
  unfold analyze at hres
  rw [hrevapp] at hres
  dsimp only at hres
  rcases hloop with hpanic | ⟨a', huip, hane, hahead, hatail⟩
  · rw [hpanic] at hres
    simp at hres
  · rw [huip] at hres
    dsimp only at hres
    rcases habuf : a'.buffer with _ | ⟨b0, bt⟩
    · exact absurd habuf hane
    · rw [habuf] at hres
      have hb0 : dl b0.var = depth := by
        rw [habuf] at hahead
        simpa using hahead
      have hbt : ∀ l ∈ bt, 0 < dl l.var ∧ dl l.var ≠ depth := by
        intro l hl
        apply hatail
        rw [habuf]
        simpa using hl
      obtain ⟨hm1, hm2, hm3⟩ := minimizeLoop_preserves dl reasonOf fuel
        ((b0 :: bt).length) 0 b0 bt a'.seen a'.toClear (by omega)
      rcases hmin : minimizeLoop dl reasonOf fuel 0 (b0 :: bt) a'.seen a'.toClear
        with ⟨mbuf, mseen, mtc⟩
      rw [hmin] at hres hm1 hm2 hm3
      dsimp only at hres hm1 hm2 hm3
      rcases mbuf with _ | ⟨c0, ctail⟩
      · exact absurd rfl hm2
      · have hc0 : c0 = b0 := by simpa using hm1
        have hctail : ∀ y ∈ ctail, y ∈ bt := by
          intro y hy
          apply hm3
          simpa using hy
      -- enum and the backjump fold
        rw [List.enum_cons, List.drop_one, List.tail_cons] at hres
        rcases ctail with _ | ⟨d0, dt⟩
        · -- no remaining literals
          rw [show List.enumFrom 1 ([] : List Lit) = [] from rfl] at hres
          rw [show maxLevelFrom dl [] = (0, 0) from rfl] at hres
          dsimp only at hres
          rw [if_neg (by omega)] at hres
          rw [Option.some.injEq, Prod.mk.injEq] at hres
          obtain ⟨hcl, hbj⟩ := hres
          subst hcl
          subst hbj
          refine ⟨by simp, ?_, ?_, by simp, ?_⟩
          · rw [List.getD_cons_zero, hc0]
            exact hb0
          · intro l hl
            simp at hl
          · intro hne
            simp at hne
        · rw [show List.enumFrom 1 (d0 :: dt) = (1, d0) :: List.enumFrom 2 dt from rfl] at hres
          -- one manual fold step, then the accumulator lemma
          have hstep : maxLevelFrom dl ((1, d0) :: List.enumFrom 2 dt)
              = (List.enumFrom 2 dt).foldl
                  (fun acc p => let l := dl p.2.var; if l ≥ acc.2 then (p.1, l) else acc)
                  (1, dl d0.var) := by
            unfold maxLevelFrom
            rw [List.foldl_cons]
            congr 1
            simp
          obtain ⟨hdisj, hval⟩ := maxLevelFrom_acc dl (List.enumFrom 2 dt) (1, dl d0.var)
          have hpair : ∃ p ∈ (1, d0) :: List.enumFrom 2 dt,
              maxLevelFrom dl ((1, d0) :: List.enumFrom 2 dt) = (p.1, dl p.2.var) := by
            rcases hdisj with h | ⟨p, hp, h⟩
            · exact ⟨(1, d0), List.mem_cons_self _ _, by rw [hstep, h]⟩
            · exact ⟨p, List.mem_cons_of_mem _ hp, by rw [hstep, h]⟩
          obtain ⟨p, hpmem, hpeq⟩ := hpair
          have hfold2 : (maxLevelFrom dl ((1, d0) :: List.enumFrom 2 dt)).2
              = ((d0 :: dt).map (fun l => dl l.var)).foldr max 0 := by
            rw [hstep, hval]
            have hmv : (List.enumFrom 2 dt).map (fun p => dl p.2.var)
                = dt.map (fun l => dl l.var) := by
              rw [show (fun p : Nat × Lit => dl p.2.var)
                  = ((fun l : Lit => dl l.var) ∘ Prod.snd) from rfl]
              rw [← List.map_map, List.enumFrom_map_snd]
            rw [hmv, List.map_cons, List.foldr_cons]
          rw [hpeq] at hres
          dsimp only at hres
          -- index facts for p
          rcases p with ⟨pi, px⟩
          have hpxbj : dl px.var = bj := by
            rw [Option.some.injEq, Prod.mk.injEq] at hres
            exact hres.2
          have hclause : clause = if pi > 1 then listSwap (c0 :: d0 :: dt) 1 pi
              else c0 :: d0 :: dt := by
            rw [Option.some.injEq, Prod.mk.injEq] at hres
            exact hres.1.symm
          have hbjfold : bj = ((d0 :: dt).map (fun l => dl l.var)).foldr max 0 := by
            rw [← hpxbj]
            have := hfold2
            rw [hpeq] at this
            simpa using this
          rcases List.mem_cons.mp hpmem with hphead | hptail
          · -- p = (1, d0)
            rw [Prod.mk.injEq] at hphead
            obtain ⟨hpi, hpx⟩ := hphead
            rw [hclause, if_neg (by omega)]
            refine ⟨by simp, ?_, ?_, ?_, ?_⟩
            · rw [List.getD_cons_zero, hc0]
              exact hb0
            · intro l hl
              rw [List.drop_one, List.tail_cons] at hl
              exact (hbt l (hctail l hl)).2
            · rw [List.drop_one, List.tail_cons]
              exact hbjfold
            · intro _
              rw [show (c0 :: d0 :: dt).getD 1 ⟨0⟩ = d0 from rfl, ← hpx]
              exact hpxbj
          · -- p comes from positions ≥ 2
            obtain ⟨k, hklen, hkeq⟩ := List.mem_iff_getElem.mp hptail
            rw [List.getElem_enumFrom] at hkeq
            rw [Prod.mk.injEq] at hkeq
            obtain ⟨hpi2, hpx2⟩ := hkeq
            have hkdt : k < dt.length := by simpa using hklen
            have hpigt : pi > 1 := by omega
            have hpilen : pi < (c0 :: d0 :: dt).length := by
              simp only [List.length_cons]
              omega
            rw [hclause, if_pos hpigt]
            obtain ⟨hswhead, hswtail⟩ := listSwap_tail_facts c0 (d0 :: dt) 1 pi
              (le_refl 1) (by omega) (by simp) hpilen
            have hsw1 : (listSwap (c0 :: d0 :: dt) 1 pi).getD 1 ⟨0⟩
                = (c0 :: d0 :: dt).getD pi ⟨0⟩ :=
              listSwap_getD_one _ pi (by simp) hpilen (by omega)
            have hgdpi : (c0 :: d0 :: dt).getD pi ⟨0⟩ = px := by
              rw [← hpx2, ← hpi2]
              rw [show 2 + k = k + 1 + 1 from by omega]
              rw [List.getD_cons_succ, List.getD_cons_succ]
              exact List.getD_eq_getElem _ _ hkdt
            have hlen : (listSwap (c0 :: d0 :: dt) 1 pi).length
                = (c0 :: d0 :: dt).length := listSwap_length ..
            have hat1 : dl ((listSwap (c0 :: d0 :: dt) 1 pi).getD 1 ⟨0⟩).var = bj := by
              rw [hsw1, hgdpi, hpxbj]
            have hdropmem : ∀ y ∈ (listSwap (c0 :: d0 :: dt) 1 pi).drop 1, y ∈ d0 :: dt :=
              hswtail
            refine ⟨?_, ?_, ?_, ?_, fun _ => hat1⟩
            · intro hnil
              rw [hnil] at hlen
              simp at hlen
            · rw [hswhead, hc0]
              exact hb0
            · intro l hl
              exact (hbt l (hctail l (hdropmem l hl))).2
            · -- backjump is the max over the swapped tail as well
              have hself : dl ((listSwap (c0 :: d0 :: dt) 1 pi).getD 1 ⟨0⟩).var
                  ∈ ((listSwap (c0 :: d0 :: dt) 1 pi).drop 1).map (fun l => dl l.var) := by
                apply List.mem_map_of_mem
                apply getD_one_mem_drop'
                rw [hlen]
                simp
              have hub : ∀ x ∈ ((listSwap (c0 :: d0 :: dt) 1 pi).drop 1).map
                  (fun l => dl l.var), x ≤ bj := by
                intro x hx
                obtain ⟨y, hy, rfl⟩ := List.mem_map.mp hx
                have hybt : y ∈ d0 :: dt := hdropmem y hy
                have hle := (foldr_max_spec ((d0 :: dt).map (fun l => dl l.var))).1
                  (dl y.var) (List.mem_map_of_mem _ hybt)
                rw [← hbjfold] at hle
                exact hle
              apply le_antisymm
              · -- bj ≤ fold
                have := (foldr_max_spec (((listSwap (c0 :: d0 :: dt) 1 pi).drop 1).map
                    (fun l => dl l.var))).1 _ hself
                rw [hat1] at this
                exact this
              · -- fold ≤ bj
                rcases (foldr_max_spec (((listSwap (c0 :: d0 :: dt) 1 pi).drop 1).map
                    (fun l => dl l.var))).2 with h0 | hmem
                · rw [h0]
                  exact Nat.zero_le _
                · exact hub _ hmem

theorem analyze_asserting_clause_witness :
    analyze dlA 1 reasonA 0 confA ([] ++ trailA) = some ([litA0.not], 0) ∧
    (([litA0.not] : List Lit) ≠ [] ∧
      dlA ((([litA0.not] : List Lit).getD 0 ⟨0⟩).var) = 1 ∧
      (∀ l ∈ ([litA0.not] : List Lit).drop 1, dlA l.var ≠ 1) ∧
      0 = ((([litA0.not] : List Lit).drop 1).map (fun l => dlA l.var)).foldr max 0 ∧
      (([litA0.not] : List Lit).drop 1 ≠ [] →
        dlA ((([litA0.not] : List Lit).getD 1 ⟨0⟩).var) = 0)) := by
  have hcl : conflictLoop dlA 1 reasonA ([] ++ trailA).reverse
      (confA.foldl (addLiteral dlA 1)
        { buffer := [], currentLevelCount := 0, seen := fun _ => false, toClear := [] })
      = .uip { buffer := [litA0.not], currentLevelCount := 0,
               seen := fun v => if v = (⟨0⟩ : Var) then true
                 else if v = (⟨1⟩ : Var) then true else false,
               toClear := [⟨1⟩, ⟨0⟩] } := by
    rfl
  have hres : analyze dlA 1 reasonA 0 confA ([] ++ trailA) = some ([litA0.not], 0) := by
    unfold analyze
    dsimp only
    rw [hcl]
    dsimp only
    rw [minimizeLoop_one]
    rfl
  exact ⟨hres, analyze_asserting_clause dlA 1 reasonA 0 confA [] trailA [litA0.not] 0
    (by decide) (by decide) (by decide) (by decide) (by decide) (by decide) (by decide) hres⟩

end Limiga
